import Mathlib

/-! # fdupves: perceptual fingerprint and distance (src/hash.c)

A shallow embedding of `pixbuf_hash`, `hash_cmp`, `buffer_hash`, `file_hash`
and `video_time_hash` from `src/hash.c`, and theorems relating them to the
statements of the specification.

Conventions of the embedding

* `hash_t` values are natural numbers; a well-formed fingerprint is `< 2 ^ 64`.
* C `int` quantities (width, height, rowstride, loop counters, luma values and
  their sum) are natural numbers.  gdk-pixbuf only builds pixel buffers whose
  geometry and byte length fit in an `int`, so none of them overflows.
* A call whose C execution has no result is an `Except.error`:
  `Fault.assertion` for a failed `g_assert`, `Fault.undefined` for an operation
  C leaves undefined (division by zero, a shift count not below the width).
* The services run in a `World`: the global `g_cache` and the list of calls made
  to the collaborators.  The pixel source, the frame sampler and the allocator
  are parameters of the services; the cache is a map from keys to fingerprints.
* `file_hash` reads a local `err` that it never initialises; whether it is
  non-null at the test, when the pixel source reported no error, is a parameter
  of `file_hash`.
-/

namespace Fdupves

/-! ## Constants and data model -/

/-- Side length of the fingerprint grid: `#define FDUPVES_HASH_LEN 8`. -/
def FDUPVES_HASH_LEN : Nat := 8

/-- Modelled from the spec: the header `hash.h` that declares `hash_t` is not
part of the sources; the specification fixes the fingerprint at 64 bits. -/
def HASH_BITS : Nat := 64

/-- Value of the gdk-pixbuf enumerator `GDK_COLORSPACE_RGB`. -/
def GDK_COLORSPACE_RGB : Int := 0

/-- Ways in which a call can end without a result. -/
inductive Fault where
  | assertion
  | undefined
deriving DecidableEq, Repr

/-- The attributes of a `GdkPixbuf` that `pixbuf_hash` reads through the
`gdk_pixbuf_get_*` accessors.  `pixels` is the byte memory starting at the
address returned by `gdk_pixbuf_get_pixels`; a `guchar` is a value below 256. -/
structure GdkPixbuf where
  colorspace : Int
  bits_per_sample : Int
  n_channels : Nat
  width : Nat
  height : Nat
  rowstride : Nat
  pixels : Nat → Fin 256

/-! ## pixbuf_hash (hash.c, lines 116-166) -/

/-- Body of the inner loop, lines 141-143: address the pixel, store its luma at
`grays[off]`, advance `off`.  The state is the pair `(grays, off)`. -/
def gray_step (pb : GdkPixbuf) (y : Nat) (st : List Nat × Nat) (x : Nat) : List Nat × Nat :=
  let p := y * pb.rowstride + x * pb.n_channels
  (st.1.set st.2
      (((pb.pixels p).val * 30 + (pb.pixels (p + 1)).val * 59 + (pb.pixels (p + 2)).val * 11) / 100),
    st.2 + 1)

/-- Lines 135-145: `grays = g_new0 (int, width * height)`, `off = 0`, then the
two nested loops, `y` outer and `x` inner. -/
def gray_fill (pb : GdkPixbuf) : List Nat × Nat :=
  (List.range pb.height).foldl
    (fun st y => (List.range pb.width).foldl (gray_step pb y) st)
    (List.replicate (pb.width * pb.height) 0, 0)

/-- Lines 147-151: `sum = 0; for (x = 0; x < off; ++x) sum += grays[x];`. -/
def gray_sum (grays : List Nat) (off : Nat) : Nat :=
  (List.range off).foldl (fun sum x => sum + grays.getD x 0) 0

/-- Body of the last loop, lines 157-160: `if (grays[x] >= avg) hash |= ((hash_t) 1 << x);`.
Shifting a `hash_t` by its width or more is undefined in C. -/
def hash_step (grays : List Nat) (avg : Nat) (hash : Nat) (x : Nat) : Except Fault Nat :=
  if grays.getD x 0 ≥ avg then
    if x < HASH_BITS then .ok (hash ||| (1 <<< x)) else .error Fault.undefined
  else .ok hash

/-- The function `pixbuf_hash`: the two assertions, the luma array, its
truncated mean (`avg = sum / off`, undefined when `off` is zero) and the
threshold loop building the fingerprint. -/
def pixbuf_hash (pb : GdkPixbuf) : Except Fault Nat :=
  if pb.colorspace ≠ GDK_COLORSPACE_RGB then .error Fault.assertion
  else if pb.bits_per_sample ≠ 8 then .error Fault.assertion
  else
    let st := gray_fill pb
    let grays := st.1
    let off := st.2
    let sum := gray_sum grays off
    if off = 0 then .error Fault.undefined
    else
      let avg := sum / off
      (List.range off).foldlM (hash_step grays avg) 0

/-! ## hash_cmp (hash.c, lines 168-210) -/

/-- Lines 201-207: `for (cmp = 0; c; c = c >> 1) if (c & 1) ++cmp;`, as a
function of the loop state `(c, cmp)`.  It terminates because `c >> 1 < c`
for every non-zero `c`. -/
def cmp_loop (c cmp : Nat) : Nat :=
  if c = 0 then cmp
  else cmp_loop (c >>> 1) (if c &&& 1 ≠ 0 then cmp + 1 else cmp)
termination_by c
decreasing_by
  simp_wf
  rw [Nat.shiftRight_eq_div_pow]
  omega

/-- The function `hash_cmp`; `compare_area` is the value of
`g_ini->compare_area` read by the `switch`.  The mask constants are the ones
written in the source (`0xFFFFFF00ULL`, `0x00FFFFFFULL`, `0xFCFCFCFCULL`,
`0x3F3F3F3FULL`). -/
def hash_cmp (compare_area : Int) (a b : Nat) : Nat :=
  if a = 0 ∨ b = 0 then FDUPVES_HASH_LEN * FDUPVES_HASH_LEN
  else
    let c := a ^^^ b
    let c := match compare_area with
      | 1 => c &&& 0xFFFFFF00
      | 2 => c &&& 0x00FFFFFF
      | 3 => c &&& 0xFCFCFCFC
      | 4 => c &&& 0x3F3F3F3F
      | _ => c
    cmp_loop c 0

/-! ## Specification-side definitions -/

/-- Population count over the 64 bit positions of a fingerprint: the number
of positions `i < 64` at which bit `i` of `n` is set. -/
def popcount64 (n : Nat) : Nat :=
  (List.range 64).countP (fun i => n.testBit i)

/-- Luma of the pixel at column `x`, row `y`, in the words of the
specification: `(R * 30 + G * 59 + B * 11) / 100`, truncating, where R, G, B
are the first three channel bytes of that pixel. -/
def spec_luma (pb : GdkPixbuf) (x y : Nat) : Nat :=
  let r := (pb.pixels (y * pb.rowstride + x * pb.n_channels)).val
  let g := (pb.pixels (y * pb.rowstride + x * pb.n_channels + 1)).val
  let b := (pb.pixels (y * pb.rowstride + x * pb.n_channels + 2)).val
  (r * 30 + g * 59 + b * 11) / 100

/-- Truncated mean luma of an 8x8 grid in the words of the specification:
the sum of the 64 luma values divided by 64. -/
def spec_avg (pb : GdkPixbuf) : Nat :=
  ((List.range 8).map (fun y => ((List.range 8).map (fun x => spec_luma pb x y)).sum)).sum / 64

/-- Luma of the cell with scan index `i` of a grid of any size: the pixel at
column `i % width`, row `i / width`. -/
def luma_at (pb : GdkPixbuf) (i : Nat) : Nat :=
  spec_luma pb (i % pb.width) (i / pb.width)

/-- Truncated mean luma over all `width * height` cells of a grid. -/
def mean_luma (pb : GdkPixbuf) : Nat :=
  ((List.range (pb.width * pb.height)).map (luma_at pb)).sum / (pb.width * pb.height)

/-- Sum of the `k` least significant bits of `n`; a structurally recursive
form of the population count used to reason about `cmp_loop`. -/
def bitsum : Nat → Nat → Nat
  | 0, _ => 0
  | k + 1, n => n % 2 + bitsum k (n / 2)

/-- A solid mid-gray 8x8 RGB buffer, tightly packed (3 channels, stride 24). -/
def gray_pixbuf : GdkPixbuf :=
  { colorspace := GDK_COLORSPACE_RGB, bits_per_sample := 8, n_channels := 3,
    width := 8, height := 8, rowstride := 24, pixels := fun _ => 128 }

/-! ## Collaborators of the fingerprinting services -/

/-- Modelled from the spec: the value of the kind tag `FDUPVES_HASH_HASH` is
declared in `cache.h`, which is not part of the sources; it only serves to
tell fingerprint entries from other cached metadata. -/
def FDUPVES_HASH_HASH : Nat := 0

/-- Key of a cache entry: source identifier, timestamp (0 for stills) and kind
tag. -/
structure CacheKey where
  file : String
  time : Int
  kind : Nat
deriving DecidableEq

/-- Modelled from the spec: `cache.c` is not part of the sources.  The cache is
a finite map from keys to fingerprints, `get(key) -> Option<Fingerprint>`,
`set(key, value)`. -/
def Cache : Type := CacheKey → Option Nat

/-- Modelled from the spec: `cache_get (cache, file, time, kind, &h)` is a pure
lookup; `some v` stands for a true return with `h = v`. -/
def cache_get (c : Cache) (file : String) (time : Int) (kind : Nat) : Option Nat :=
  c { file := file, time := time, kind := kind }

/-- Modelled from the spec: `cache_set (cache, file, time, kind, h)` stores `h`
under the key and leaves every other entry alone. -/
def cache_set (c : Cache) (file : String) (time : Int) (kind : Nat) (h : Nat) : Cache :=
  fun k => if k = { file := file, time := time, kind := kind } then some h else c k

/-- A call to a collaborator (cache, pixel source, frame sampler). -/
inductive Event where
  | cache_get (file : String) (time : Int) (kind : Nat)
  | cache_set (file : String) (time : Int) (kind : Nat) (h : Nat)
  | load_file (file : String) (width height : Nat)
  | screenshot (file : String) (time : Int) (width height : Nat)
deriving DecidableEq

/-- Process state seen by the services: the global `g_cache` (`none` when no
cache is configured) and the collaborator calls made so far, oldest first. -/
structure World where
  g_cache : Option Cache
  trace : List Event

/-- The gdk-pixbuf constructor `gdk_pixbuf_new_from_data`: a pixel buffer over
caller-owned bytes, with 4 channels when `has_alpha` and 3 otherwise. -/
def gdk_pixbuf_new_from_data (data : Nat → Fin 256) (colorspace : Int) (has_alpha : Bool)
    (bits_per_sample : Int) (width height rowstride : Nat) : GdkPixbuf :=
  { colorspace := colorspace, bits_per_sample := bits_per_sample,
    n_channels := if has_alpha then 4 else 3,
    width := width, height := height, rowstride := rowstride, pixels := data }

/-! ## buffer_hash, file_hash, video_time_hash (hash.c, lines 46-114, 212-261) -/

set_option linter.unusedVariables false in
/-- The function `buffer_hash`.  `err` is set to `NULL` and never written: the
call passes `&err` in the position of the destroy-notify data of
`gdk_pixbuf_new_from_data`, which reports no error. -/
def buffer_hash (buffer : Nat → Fin 256) (size : Nat) : Except Fault Nat :=
  let err : Option Unit := none
  let buf := gdk_pixbuf_new_from_data buffer GDK_COLORSPACE_RGB false 8
    FDUPVES_HASH_LEN FDUPVES_HASH_LEN (FDUPVES_HASH_LEN * 3)
  if err.isSome then .ok 0
  else pixbuf_hash buf

/-- The block `if (g_cache) { if (cache_get (g_cache, file, time,
FDUPVES_HASH_HASH, &h)) return h; }`: the value found, if any, and the state
after the lookup. -/
def cache_probe (w : World) (file : String) (time : Int) : Option Nat × World :=
  match w.g_cache with
  | none => (none, w)
  | some c =>
    (cache_get c file time FDUPVES_HASH_HASH,
      { g_cache := some c, trace := w.trace ++ [Event.cache_get file time FDUPVES_HASH_HASH] })

/-- The block `if (g_cache) { if (h) cache_set (g_cache, file, time,
FDUPVES_HASH_HASH, h); }`. -/
def cache_store (w : World) (file : String) (time : Int) (h : Nat) : World :=
  match w.g_cache with
  | none => w
  | some c =>
    if h ≠ 0 then
      { g_cache := some (cache_set c file time FDUPVES_HASH_HASH h),
        trace := w.trace ++ [Event.cache_set file time FDUPVES_HASH_HASH h] }
    else w

/-- The function `file_hash`.  The source declares `GError *err;` without an
initial value (line 51) and branches on it after the call of the pixel source
(line 65): the parameter `err` tells whether that variable holds a non-null
value at the test when the pixel source has reported no error.  The pixel
source `fdupves_gdkpixbuf_load_file_at_size` (declared in `image.h`, not part
of the sources) is the parameter `load`: `none` when it reports an error,
which makes `err` non-null, `some buf` when it returns a pixel buffer without
reporting one.  The error branch returns 0;
`g_warning` and `g_error_free` in it have no effect on the result or on the
cache.  The result is paired with the state in which the call ends, also when
`pixbuf_hash` aborts. -/
def file_hash (load : String → Nat → Nat → Option GdkPixbuf) (err : Bool) (file : String)
    (w : World) : Except Fault Nat × World :=
  match cache_probe w file 0 with
  | (some h, w1) => (.ok h, w1)
  | (none, w1) =>
    let w2 : World :=
      { g_cache := w1.g_cache,
        trace := w1.trace ++ [Event.load_file file FDUPVES_HASH_LEN FDUPVES_HASH_LEN] }
    match load file FDUPVES_HASH_LEN FDUPVES_HASH_LEN with
    | none => (.ok 0, w2)
    | some buf =>
      if err = true then (.ok 0, w2)
      else
        match pixbuf_hash buf with
        | .error f => (.error f, w2)
        | .ok h => (.ok h, cache_store w2 file 0 h)

/-- The function `video_time_hash` (without the `_DEBUG` block).  The frame
sampler `video_time_screenshot` (declared in `video.h`, not part of the
sources) is a parameter: given the caller's buffer it yields its status and
the contents of the buffer after the call.  `g_malloc` gives the contents of
the fresh allocation, which C leaves indeterminate; it never returns `NULL`.
The status of `video_time_screenshot` is not read by the source. -/
def video_time_hash
    (video_time_screenshot :
      String → Int → Nat → Nat → (Nat → Fin 256) → Nat → Int × (Nat → Fin 256))
    (g_malloc : Nat → (Nat → Fin 256)) (file : String) (time : Int) (w : World) :
    Except Fault Nat × World :=
  match cache_probe w file time with
  | (some h, w1) => (.ok h, w1)
  | (none, w1) =>
    let len := FDUPVES_HASH_LEN * FDUPVES_HASH_LEN * 3
    let buffer := g_malloc len
    let shot := video_time_screenshot file time FDUPVES_HASH_LEN FDUPVES_HASH_LEN buffer len
    let w2 : World :=
      { g_cache := w1.g_cache,
        trace := w1.trace ++ [Event.screenshot file time FDUPVES_HASH_LEN FDUPVES_HASH_LEN] }
    match buffer_hash shot.2 len with
    | .error f => (.error f, w2)
    | .ok h => (.ok h, cache_store w2 file time h)

/-! ## Specification-side definitions for the services -/

/-- Number of pixel-decode calls (calls to the pixel source) in a trace. -/
def decode_calls (t : List Event) : Nat :=
  t.countP (fun e => match e with
    | Event.load_file _ _ _ => true
    | _ => false)

/-- The cache writes recorded in a trace, in order: key and stored value. -/
def cache_writes (t : List Event) : List (CacheKey × Nat) :=
  t.filterMap (fun e => match e with
    | Event.cache_set f t k h => some ({ file := f, time := t, kind := k }, h)
    | _ => none)

/-- No entry of the configured cache, if any, holds the invalid fingerprint 0. -/
def no_zero_entry (w : World) : Prop :=
  ∀ (c : Cache) (k : CacheKey), w.g_cache = some c → c k ≠ some 0

/-- What a service call may do to the cache, from state `w` to the outcome
`r`: either nothing, or exactly one write, of the returned non-zero value,
under the key `(file, time, FDUPVES_HASH_HASH)`. -/
def writes_only_result (file : String) (time : Int) (w : World)
    (r : Except Fault Nat × World) : Prop :=
  (r.2.g_cache = w.g_cache ∧ cache_writes r.2.trace = cache_writes w.trace) ∨
  (∃ (c : Cache) (h : Nat), h ≠ 0 ∧ r.1 = Except.ok h ∧ w.g_cache = some c ∧
    r.2.g_cache = some (cache_set c file time FDUPVES_HASH_HASH h) ∧
    cache_writes r.2.trace = cache_writes w.trace ++
      [({ file := file, time := time, kind := FDUPVES_HASH_HASH }, h)])

/-- The red, green and blue samples of the pixel at column `x`, row `y`. -/
def pixel_rgb (pb : GdkPixbuf) (x y : Nat) : Fin 256 × Fin 256 × Fin 256 :=
  (pb.pixels (y * pb.rowstride + x * pb.n_channels),
   pb.pixels (y * pb.rowstride + x * pb.n_channels + 1),
   pb.pixels (y * pb.rowstride + x * pb.n_channels + 2))

/-- Luma of an (R, G, B) triple: `(R * 30 + G * 59 + B * 11) / 100`. -/
def rgb_luma (p : Fin 256 × Fin 256 × Fin 256) : Nat :=
  (p.1.val * 30 + p.2.1.val * 59 + p.2.2.val * 11) / 100

/-! ## Concrete inputs used in witnesses and counterexamples -/

/-- A cache with no entry. -/
def empty_cache : Cache := fun _ => none

/-- A configured, empty cache and no collaborator call so far. -/
def empty_world : World := { g_cache := some empty_cache, trace := [] }

/-- A pixel source that reports an error for every path. -/
def failing_load : String → Nat → Nat → Option GdkPixbuf := fun _ _ _ => none

/-- A pixel source that decodes every path to the solid mid-gray grid. -/
def gray_load : String → Nat → Nat → Option GdkPixbuf := fun _ _ _ => some gray_pixbuf

/-- A frame sampler that fails: status -1, buffer left as it was. -/
def failing_screenshot :
    String → Int → Nat → Nat → (Nat → Fin 256) → Nat → Int × (Nat → Fin 256) :=
  fun _ _ _ _ buffer _ => (-1, buffer)

/-- An allocator whose fresh memory happens to be all zero bytes. -/
def zero_malloc : Nat → (Nat → Fin 256) := fun _ _ => 0

/-- A tightly packed 8x8 RGB grid, white at `(x0, y0)` and black elsewhere. -/
def white_cell_pixbuf (x0 y0 : Nat) : GdkPixbuf :=
  { colorspace := GDK_COLORSPACE_RGB, bits_per_sample := 8, n_channels := 3,
    width := 8, height := 8, rowstride := 24,
    pixels := fun i => if i / 24 = y0 ∧ (i % 24) / 3 = x0 then 255 else 0 }

/-- A 1x1 RGB grid holding one mid-gray pixel. -/
def one_cell_pixbuf : GdkPixbuf :=
  { colorspace := GDK_COLORSPACE_RGB, bits_per_sample := 8, n_channels := 3,
    width := 1, height := 1, rowstride := 3, pixels := fun _ => 128 }

/-- The solid mid-gray 8x8 grid in an RGBA layout with row padding: 4 channels,
stride 40, alpha and padding bytes set to 9. -/
def padded_gray_pixbuf : GdkPixbuf :=
  { colorspace := GDK_COLORSPACE_RGB, bits_per_sample := 8, n_channels := 4,
    width := 8, height := 8, rowstride := 40,
    pixels := fun i => if 32 ≤ i % 40 ∨ (i % 40) % 4 = 3 then 9 else 128 }

/-! ## Lemmas on the bit-counting loop -/

theorem bitsum_zero (k : Nat) : bitsum k 0 = 0 := by
  induction k with
  | zero => rfl
  | succ k ih => simp [bitsum, ih]

theorem bitsum_le (k : Nat) : ∀ n : Nat, bitsum k n ≤ k := by
  induction k with
  | zero => intro n; simp [bitsum]
  | succ k ih =>
    intro n
    have h1 := ih (n / 2)
    have h2 : n % 2 < 2 := Nat.mod_lt _ (by decide)
    simp only [bitsum]
    omega

/-- The loop adds to `cmp` the number of set bits of `c`. -/
theorem cmp_loop_eq_bitsum (k : Nat) :
    ∀ c cmp : Nat, c < 2 ^ k → cmp_loop c cmp = cmp + bitsum k c := by
  induction k with
  | zero =>
    intro c cmp h
    have hc : c = 0 := by simpa using h
    subst hc
    rw [cmp_loop]; simp [bitsum]
  | succ k ih =>
    intro c cmp h
    rw [cmp_loop]
    by_cases hc : c = 0
    · subst hc; simp [bitsum_zero]
    · have h2 : c >>> 1 < 2 ^ k := by
        rw [Nat.shiftRight_eq_div_pow]; rw [pow_succ] at h; omega
      rw [if_neg hc, ih _ _ h2, Nat.and_one_is_mod, Nat.shiftRight_eq_div_pow]
      simp only [bitsum, pow_one]
      rcases Nat.mod_two_eq_zero_or_one c with h0 | h1
      · simp [h0]
      · simp [h1]; omega

theorem bitsum_eq_countP (k : Nat) :
    ∀ n : Nat, bitsum k n = (List.range k).countP (fun i => n.testBit i) := by
  induction k with
  | zero => intro n; rfl
  | succ k ih =>
    intro n
    rw [List.range_succ_eq_map, List.countP_cons, List.countP_map, bitsum, ih]
    have hshift : ((fun i => n.testBit i) ∘ Nat.succ) = (fun i => (n / 2).testBit i) := by
      funext i; simp [Nat.testBit_succ]
    rw [hshift, Nat.testBit_zero]
    rcases Nat.mod_two_eq_zero_or_one n with h0 | h1
    · simp [h0]
    · simp [h1]; omega

theorem cmp_loop_eq_popcount64 (c : Nat) (h : c < 2 ^ 64) : cmp_loop c 0 = popcount64 c := by
  rw [cmp_loop_eq_bitsum 64 c 0 h, bitsum_eq_countP]; simp [popcount64]

theorem bitsum_and_le (k : Nat) : ∀ n m : Nat, bitsum k (n &&& m) ≤ bitsum k n := by
  induction k with
  | zero => intro n m; simp [bitsum]
  | succ k ih =>
    intro n m
    have h1 := ih (n / 2) (m / 2)
    have hdiv : (n &&& m) / 2 = (n / 2) &&& (m / 2) := Nat.and_div_two
    have hmod : (n &&& m) % 2 ≤ n % 2 := by
      rcases Nat.mod_two_eq_zero_or_one (n &&& m) with hx | hx
      · omega
      · have := Nat.and_mod_two_eq_one.mp hx
        omega
    simp only [bitsum, hdiv]
    omega

/-- Masking never increases what the loop counts. -/
theorem cmp_loop_and_le (c m : Nat) : cmp_loop (c &&& m) 0 ≤ cmp_loop c 0 := by
  have hc : c < 2 ^ c := Nat.lt_two_pow c
  have hm : c &&& m < 2 ^ c := lt_of_le_of_lt Nat.and_le_left hc
  rw [cmp_loop_eq_bitsum c _ _ hc, cmp_loop_eq_bitsum c _ _ hm]
  simpa using bitsum_and_le c c m

/-- A value below `2 ^ 32` has at most 32 set bits. -/
theorem cmp_loop_le_32 (c : Nat) (h : c < 2 ^ 32) : cmp_loop c 0 ≤ 32 := by
  rw [cmp_loop_eq_bitsum 32 c 0 h]
  simpa using bitsum_le 32 c

theorem popcount64_full (c : Nat) (hc : c < 2 ^ 64) (h : popcount64 c = 64) :
    c = 2 ^ 64 - 1 := by
  have hlen : (List.range 64).countP (fun i => c.testBit i) = (List.range 64).length := by
    simpa [popcount64] using h
  rw [List.countP_eq_length] at hlen
  apply Nat.eq_of_testBit_eq
  intro i
  rw [Nat.testBit_two_pow_sub_one]
  by_cases hi : i < 64
  · have := hlen i (List.mem_range.mpr hi)
    simpa [hi] using this
  · have hle : 2 ^ 64 ≤ 2 ^ i := Nat.pow_le_pow_right (by decide) (by omega)
    have : c.testBit i = false := Nat.testBit_lt_two_pow (lt_of_lt_of_le hc hle)
    simp [hi, this]

/-! ## Fingerprint function: lemmas on the loops of pixbuf_hash -/

theorem gray_step_eq (pb : GdkPixbuf) (y : Nat) (st : List Nat × Nat) (x : Nat) :
    gray_step pb y st x = (st.1.set st.2 (spec_luma pb x y), st.2 + 1) := rfl

/-- Effect of the inner loop run for `n` columns from the state `st`. -/
theorem gray_row_spec (pb : GdkPixbuf) (y : Nat) (st : List Nat × Nat) :
    ∀ n : Nat, st.2 + n ≤ st.1.length →
      ((List.range n).foldl (gray_step pb y) st).2 = st.2 + n ∧
      ((List.range n).foldl (gray_step pb y) st).1.length = st.1.length ∧
      ∀ i : Nat, ((List.range n).foldl (gray_step pb y) st).1.getD i 0 =
        if st.2 ≤ i ∧ i < st.2 + n then spec_luma pb (i - st.2) y else st.1.getD i 0 := by
  intro n
  induction n with
  | zero =>
    intro _
    refine ⟨rfl, rfl, ?_⟩
    intro i
    have hc : ¬ (st.2 ≤ i ∧ i < st.2 + 0) := by omega
    rw [if_neg hc]
    rfl
  | succ n ih =>
    intro hlen
    obtain ⟨h1, h2, h3⟩ := ih (by omega)
    rw [List.range_succ, List.foldl_append]
    simp only [List.foldl_cons, List.foldl_nil, gray_step_eq]
    refine ⟨by rw [h1]; omega, by rw [List.length_set, h2], ?_⟩
    intro i
    rw [h1]
    by_cases hi : i = st.2 + n
    · subst hi
      have : st.2 + n < ((List.range n).foldl (gray_step pb y) st).1.length := by omega
      simp [List.getD_eq_getElem?_getD, List.getElem?_set, this]
    · have hne : st.2 + n ≠ i := fun e => hi e.symm
      rw [List.getD_eq_getElem?_getD, List.getElem?_set_ne hne, ← List.getD_eq_getElem?_getD, h3 i]
      by_cases hc : st.2 ≤ i ∧ i < st.2 + n
      · have hc2 : st.2 ≤ i ∧ i < st.2 + (n + 1) := ⟨hc.1, by omega⟩
        rw [if_pos hc, if_pos hc2]
      · have hc2 : ¬ (st.2 ≤ i ∧ i < st.2 + (n + 1)) := by
          intro h; apply hc; exact ⟨h.1, by omega⟩
        rw [if_neg hc, if_neg hc2]


theorem div_mod_of_row (w k i : Nat) (h1 : k * w ≤ i) (h2 : i < k * w + w) :
    i / w = k ∧ i % w = i - k * w := by
  have hd : i / w = k := Nat.div_eq_of_lt_le h1 (by rw [Nat.succ_mul]; exact h2)
  refine ⟨hd, ?_⟩
  have := Nat.mod_add_div i w
  rw [hd, Nat.mul_comm] at this
  omega

/-- Effect of the outer loop run for `k` rows from the initial state. -/
theorem gray_rows_spec (pb : GdkPixbuf) :
    ∀ k : Nat, k ≤ pb.height →
      ((List.range k).foldl (fun st y => (List.range pb.width).foldl (gray_step pb y) st)
          (List.replicate (pb.width * pb.height) 0, 0)).2 = k * pb.width ∧
      ((List.range k).foldl (fun st y => (List.range pb.width).foldl (gray_step pb y) st)
          (List.replicate (pb.width * pb.height) 0, 0)).1.length = pb.width * pb.height ∧
      ∀ i : Nat,
        ((List.range k).foldl (fun st y => (List.range pb.width).foldl (gray_step pb y) st)
          (List.replicate (pb.width * pb.height) 0, 0)).1.getD i 0 =
        if i < k * pb.width then spec_luma pb (i % pb.width) (i / pb.width) else 0 := by
  intro k
  induction k with
  | zero =>
    intro _
    refine ⟨by simp, by simp, ?_⟩
    intro i
    simp only [List.foldl_nil, List.range_zero, List.getD_eq_getElem?_getD,
      List.getElem?_replicate, Nat.zero_mul, Nat.not_lt_zero, if_false]
    split <;> rfl
  | succ k ih =>
    intro hk
    obtain ⟨h1, h2, h3⟩ := ih (by omega)
    rw [List.range_succ, List.foldl_append]
    simp only [List.foldl_cons, List.foldl_nil]
    have hfit : (k + 1) * pb.width ≤ pb.width * pb.height := by
      rw [Nat.mul_comm pb.width]; exact Nat.mul_le_mul_right _ hk
    rw [Nat.succ_mul] at hfit
    obtain ⟨r1, r2, r3⟩ := gray_row_spec pb k _ pb.width (by rw [h1, h2]; exact hfit)
    rw [h1] at r1 r3
    refine ⟨by rw [r1, Nat.succ_mul], by rw [r2, h2], ?_⟩
    intro i
    rw [r3 i, h3 i, Nat.succ_mul]
    by_cases hc : k * pb.width ≤ i ∧ i < k * pb.width + pb.width
    · obtain ⟨hd, hm⟩ := div_mod_of_row pb.width k i hc.1 hc.2
      rw [if_pos hc, if_pos hc.2, hd, hm]
    · rw [if_neg hc]
      by_cases hlt : i < k * pb.width
      · rw [if_pos hlt, if_pos (by omega)]
      · rw [if_neg hlt, if_neg (by omega)]

theorem gray_fill_spec (pb : GdkPixbuf) :
    (gray_fill pb).2 = pb.width * pb.height ∧
    ∀ i : Nat, (gray_fill pb).1.getD i 0 =
      if i < pb.width * pb.height then spec_luma pb (i % pb.width) (i / pb.width) else 0 := by
  obtain ⟨h1, _, h3⟩ := gray_rows_spec pb pb.height (le_refl _)
  refine ⟨by rw [Nat.mul_comm]; exact h1, ?_⟩
  intro i
  rw [Nat.mul_comm pb.width]
  exact h3 i

theorem gray_sum_eq (grays : List Nat) (off : Nat) :
    gray_sum grays off = ((List.range off).map (fun x => grays.getD x 0)).sum := by
  unfold gray_sum
  induction off with
  | zero => rfl
  | succ n ih => rw [List.range_succ, List.foldl_append, List.map_append, List.sum_append, ih]; simp

theorem hash_step_set (grays : List Nat) (avg hash x : Nat)
    (hg : grays.getD x 0 ≥ avg) (hx : x < 64) :
    hash_step grays avg hash x = Except.ok (hash ||| (1 <<< x)) := by
  have hx2 : x < HASH_BITS := hx
  unfold hash_step
  rw [if_pos hg, if_pos hx2]

theorem hash_step_clear (grays : List Nat) (avg hash x : Nat)
    (hg : ¬ grays.getD x 0 ≥ avg) :
    hash_step grays avg hash x = Except.ok hash := by
  unfold hash_step
  rw [if_neg hg]

/-- The threshold loop run for `n <= 64` cells returns a value below `2 ^ n`
whose bit `i` records whether cell `i` reaches the average. -/
theorem hash_loop_spec (grays : List Nat) (avg : Nat) :
    ∀ n : Nat, n ≤ 64 →
      ∃ h : Nat, (List.range n).foldlM (hash_step grays avg) 0 = Except.ok h ∧ h < 2 ^ n ∧
        ∀ i : Nat, h.testBit i = (decide (i < n) && decide (grays.getD i 0 ≥ avg)) := by
  intro n
  induction n with
  | zero =>
    intro _
    exact ⟨0, rfl, by decide, by intro i; simp⟩
  | succ n ih =>
    intro hn
    obtain ⟨h, hok, hlt, hbits⟩ := ih (by omega)
    rw [List.range_succ, List.foldlM_append, hok]
    have hlt2 : h < 2 ^ (n + 1) := lt_of_lt_of_le hlt (Nat.pow_le_pow_right (by decide) (by omega))
    by_cases hg : grays.getD n 0 ≥ avg
    · refine ⟨h ||| (1 <<< n), ?_, ?_, ?_⟩
      · show (List.foldlM (hash_step grays avg) h [n]) = _
        rw [List.foldlM_cons, hash_step_set grays avg h n hg (by omega)]
        rfl
      · rw [Nat.one_shiftLeft]
        exact Nat.or_lt_two_pow hlt2 (Nat.pow_lt_pow_right (by decide) (by omega))
      · intro i
        rw [Nat.testBit_or, hbits i, Nat.one_shiftLeft, Nat.testBit_two_pow]
        by_cases hi : i = n
        · subst hi
          rw [decide_eq_true hg]
          simp
        · have hne : ¬ n = i := fun e => hi e.symm
          have hiff : (i < n + 1) ↔ (i < n) := by omega
          simp [hne, hiff]
    · refine ⟨h, ?_, hlt2, ?_⟩
      · show (List.foldlM (hash_step grays avg) h [n]) = _
        rw [List.foldlM_cons, hash_step_clear grays avg h n hg]
        rfl
      · intro i
        rw [hbits i]
        by_cases hi : i = n
        · subst hi
          rw [decide_eq_false hg]
          simp
        · have hiff : (i < n + 1) ↔ (i < n) := by omega
          simp [hiff]

theorem sum_grid8 (f : Nat → Nat → Nat) :
    ((List.range 64).map (fun i => f (i % 8) (i / 8))).sum =
    ((List.range 8).map (fun y => ((List.range 8).map (fun x => f x y)).sum)).sum := by
  simp only [List.range, List.range.loop, List.map, List.sum_cons, List.sum_nil]
  norm_num
  ring

/-- For a grid of 1 to 64 cells that passes the two assertions, `pixbuf_hash`
returns a value below `2 ^ (width * height)` whose bit `i` is set exactly when
cell `i` has luma at least the truncated mean. -/
theorem pixbuf_hash_ok (pb : GdkPixbuf)
    (hc : pb.colorspace = GDK_COLORSPACE_RGB) (hb : pb.bits_per_sample = 8)
    (hpos : 0 < pb.width * pb.height) (hle : pb.width * pb.height ≤ 64) :
    ∃ h : Nat, pixbuf_hash pb = Except.ok h ∧ h < 2 ^ (pb.width * pb.height) ∧
      ∀ i : Nat, h.testBit i =
        (decide (i < pb.width * pb.height) && decide (luma_at pb i ≥ mean_luma pb)) := by
  obtain ⟨hoff, hget⟩ := gray_fill_spec pb
  have hsum : gray_sum (gray_fill pb).1 (gray_fill pb).2 =
      ((List.range (pb.width * pb.height)).map (luma_at pb)).sum := by
    rw [gray_sum_eq, hoff]
    congr 1
    apply List.map_congr_left
    intro i hi
    rw [hget i, if_pos (List.mem_range.mp hi)]
    rfl
  obtain ⟨h, hok, hlt, hbits⟩ :=
    hash_loop_spec (gray_fill pb).1 (mean_luma pb) (pb.width * pb.height) hle
  refine ⟨h, ?_, hlt, ?_⟩
  · unfold pixbuf_hash
    rw [if_neg (fun hne => hne hc), if_neg (fun hne => hne hb)]
    simp only [hsum]
    rw [if_neg (by rw [hoff]; omega), hoff]
    exact hok
  · intro i
    rw [hbits i]
    by_cases hi : i < pb.width * pb.height
    · rw [hget i, if_pos hi]; rfl
    · simp [hi]

/-! ## Fingerprint function: claims about pixbuf_hash -/

/-- C1: for every 8x8 RGB grid with 8-bit samples, `pixbuf_hash` returns a
64-bit value whose bit `8 * y + x` is set if and only if the luma
`(30 R + 59 G + 11 B) / 100` of the pixel at `(x, y)` is at least the sum of
the 64 lumas divided by 64. -/
theorem pixbuf_hash_8x8_bits (pb : GdkPixbuf)
    (hc : pb.colorspace = GDK_COLORSPACE_RGB) (hb : pb.bits_per_sample = 8)
    (hw : pb.width = 8) (hh : pb.height = 8) :
    ∃ h : Nat, pixbuf_hash pb = Except.ok h ∧ h < 2 ^ 64 ∧
      ∀ x y : Nat, x < 8 → y < 8 →
        (h.testBit (8 * y + x) = true ↔ spec_luma pb x y ≥ spec_avg pb) := by
  have hcells : pb.width * pb.height = 64 := by rw [hw, hh]
  obtain ⟨h, hok, hlt, hbits⟩ :=
    pixbuf_hash_ok pb hc hb (by rw [hcells]; decide) (by rw [hcells])
  rw [hcells] at hlt hbits
  have havg : mean_luma pb = spec_avg pb := by
    unfold mean_luma spec_avg
    rw [hcells]
    have hfun : luma_at pb = fun i => spec_luma pb (i % 8) (i / 8) := by
      funext i
      simp only [luma_at, hw]
    rw [hfun, sum_grid8 (fun x y => spec_luma pb x y)]
  refine ⟨h, hok, hlt, ?_⟩
  intro x y hx hy
  have hi : 8 * y + x < 64 := by omega
  have hmod : (8 * y + x) % 8 = x := by omega
  have hdiv : (8 * y + x) / 8 = y := by omega
  rw [hbits, havg]
  simp only [luma_at, hw, hmod, hdiv, hi, decide_True, Bool.true_and, decide_eq_true_eq]

theorem pixbuf_hash_8x8_bits_witness :
    gray_pixbuf.colorspace = GDK_COLORSPACE_RGB ∧ gray_pixbuf.bits_per_sample = 8 ∧
    gray_pixbuf.width = 8 ∧ gray_pixbuf.height = 8 ∧
    ∃ h : Nat, pixbuf_hash gray_pixbuf = Except.ok h ∧ h < 2 ^ 64 ∧
      ∀ x y : Nat, x < 8 → y < 8 →
        (h.testBit (8 * y + x) = true ↔ spec_luma gray_pixbuf x y ≥ spec_avg gray_pixbuf) :=
  ⟨rfl, rfl, rfl, rfl, pixbuf_hash_8x8_bits gray_pixbuf rfl rfl rfl rfl⟩

/-! ## Distance metric: claims about hash_cmp -/

/-- What `hash_cmp` computes for two non-zero fingerprints, with the mask
selection still explicit. -/
theorem hash_cmp_nonzero (m : Int) (a b : Nat) (ha : a ≠ 0) (hb : b ≠ 0) :
    hash_cmp m a b = cmp_loop (match m with
      | 1 => (a ^^^ b) &&& 0xFFFFFF00
      | 2 => (a ^^^ b) &&& 0x00FFFFFF
      | 3 => (a ^^^ b) &&& 0xFCFCFCFC
      | 4 => (a ^^^ b) &&& 0x3F3F3F3F
      | _ => a ^^^ b) 0 := by
  simp [hash_cmp, ha, hb]

/-- C2: in mode 0, and in every mode outside 1..4, the distance of two
non-zero 64-bit fingerprints is the population count of `a XOR b` over all 64
bits. -/
theorem hash_cmp_default_mode (m : Int) (a b : Nat)
    (hm : m ≠ 1 ∧ m ≠ 2 ∧ m ≠ 3 ∧ m ≠ 4)
    (ha : a ≠ 0) (hb : b ≠ 0) (ha64 : a < 2 ^ 64) (hb64 : b < 2 ^ 64) :
    hash_cmp m a b = popcount64 (a ^^^ b) := by
  obtain ⟨h1, h2, h3, h4⟩ := hm
  rw [hash_cmp_nonzero m a b ha hb]
  split
  · exact absurd rfl h1
  · exact absurd rfl h2
  · exact absurd rfl h3
  · exact absurd rfl h4
  · exact cmp_loop_eq_popcount64 _ (Nat.xor_lt_two_pow ha64 hb64)

theorem hash_cmp_default_mode_witness :
    ((0 : Int) ≠ 1 ∧ (0 : Int) ≠ 2 ∧ (0 : Int) ≠ 3 ∧ (0 : Int) ≠ 4) ∧
    (5 : Nat) ≠ 0 ∧ (3 : Nat) ≠ 0 ∧ 5 < 2 ^ 64 ∧ 3 < 2 ^ 64 ∧
    hash_cmp 0 5 3 = popcount64 (5 ^^^ 3) :=
  ⟨by decide, by decide, by decide, by decide, by decide,
    hash_cmp_default_mode 0 5 3 (by decide) (by decide) (by decide) (by decide) (by decide)⟩

/-- C3: the claim asks mode 1 to drop only bits 0..7.  On the fingerprints
`2^32` and `2^33`, which differ in bits 32 and 33, `hash_cmp` in mode 1
returns 0, whereas the population count of the XOR with only the low byte
masked out is 2. -/
theorem hash_cmp_mode1_drops_high_half :
    hash_cmp 1 0x100000000 0x200000000 = 0 ∧
    popcount64 ((0x100000000 ^^^ 0x200000000) &&& 0xFFFFFFFFFFFFFF00) = 2 := by
  refine ⟨?_, by decide⟩
  rw [hash_cmp_nonzero 1 _ _ (by decide) (by decide)]
  show cmp_loop ((0x100000000 ^^^ 0x200000000) &&& 0xFFFFFF00) 0 = 0
  rw [cmp_loop_eq_bitsum 64 _ _ (by decide)]
  decide

/-- C4: the claim asks mode 2 to drop only bits 56..63.  On the fingerprints
`2^24` and `2^25`, which differ in bits 24 and 25, `hash_cmp` in mode 2
returns 0, whereas the population count of the XOR with only the high byte
masked out is 2. -/
theorem hash_cmp_mode2_drops_bits_24_up :
    hash_cmp 2 0x1000000 0x2000000 = 0 ∧
    popcount64 ((0x1000000 ^^^ 0x2000000) &&& 0x00FFFFFFFFFFFFFF) = 2 := by
  refine ⟨?_, by decide⟩
  rw [hash_cmp_nonzero 2 _ _ (by decide) (by decide)]
  show cmp_loop ((0x1000000 ^^^ 0x2000000) &&& 0x00FFFFFF) 0 = 0
  rw [cmp_loop_eq_bitsum 64 _ _ (by decide)]
  decide

/-- C5: the claim asks modes 3 and 4 to apply the byte pattern to all eight
bytes.  On the fingerprints `2^39` and `2^47` (bit 7 of bytes 4 and 5) mode 3
returns 0 where the 0xFC pattern over all bytes counts 2, and on `2^32` and
`2^40` (bit 0 of bytes 4 and 5) mode 4 returns 0 where the 0x3F pattern over
all bytes counts 2. -/
theorem hash_cmp_mode34_ignore_bytes_4_to_7 :
    (hash_cmp 3 0x8000000000 0x800000000000 = 0 ∧
      popcount64 ((0x8000000000 ^^^ 0x800000000000) &&& 0xFCFCFCFCFCFCFCFC) = 2) ∧
    (hash_cmp 4 0x100000000 0x10000000000 = 0 ∧
      popcount64 ((0x100000000 ^^^ 0x10000000000) &&& 0x3F3F3F3F3F3F3F3F) = 2) := by
  refine ⟨⟨?_, by decide⟩, ⟨?_, by decide⟩⟩
  · rw [hash_cmp_nonzero 3 _ _ (by decide) (by decide)]
    show cmp_loop ((0x8000000000 ^^^ 0x800000000000) &&& 0xFCFCFCFC) 0 = 0
    rw [cmp_loop_eq_bitsum 64 _ _ (by decide)]
    decide
  · rw [hash_cmp_nonzero 4 _ _ (by decide) (by decide)]
    show cmp_loop ((0x100000000 ^^^ 0x10000000000) &&& 0x3F3F3F3F) 0 = 0
    rw [cmp_loop_eq_bitsum 64 _ _ (by decide)]
    decide

/-- C6: in every mode, comparing the invalid fingerprint 0 with any
fingerprint, on either side, gives the maximum distance 64. -/
theorem hash_cmp_zero_is_max (m : Int) (x : Nat) :
    hash_cmp m 0 x = 64 ∧ hash_cmp m x 0 = 64 := by
  constructor <;> simp [hash_cmp, FDUPVES_HASH_LEN]

/-- C7, as stated, fails: in mode 0 the two non-zero fingerprints
`0xFFFFFFFF00000000` and `0x00000000FFFFFFFF` are at distance 64. -/
theorem hash_cmp_max_for_valid_pair :
    ¬ (∀ (m : Int) (a b : Nat), a < 2 ^ 64 → b < 2 ^ 64 →
        hash_cmp m a b = 64 → a = 0 ∨ b = 0) := by
  intro h
  have h64 : hash_cmp 0 0xFFFFFFFF00000000 0x00000000FFFFFFFF = 64 := by
    rw [hash_cmp_nonzero 0 _ _ (by decide) (by decide)]
    show cmp_loop (0xFFFFFFFF00000000 ^^^ 0x00000000FFFFFFFF) 0 = 64
    rw [cmp_loop_eq_bitsum 64 _ _ (by decide)]
    decide
  have := h 0 0xFFFFFFFF00000000 0x00000000FFFFFFFF (by decide) (by decide) h64
  revert this
  decide

/-- C7, amended: if `hash_cmp` returns 64 for two 64-bit fingerprints, then
one of them is 0, or else the mode is outside 1..4 and the two fingerprints
are bitwise complements of each other (`a XOR b = 2^64 - 1`). -/
theorem hash_cmp_max_only_if (m : Int) (a b : Nat) (ha64 : a < 2 ^ 64) (hb64 : b < 2 ^ 64)
    (h : hash_cmp m a b = 64) :
    a = 0 ∨ b = 0 ∨ ((m ≠ 1 ∧ m ≠ 2 ∧ m ≠ 3 ∧ m ≠ 4) ∧ a ^^^ b = 2 ^ 64 - 1) := by
  by_cases ha : a = 0
  · exact Or.inl ha
  by_cases hb : b = 0
  · exact Or.inr (Or.inl hb)
  refine Or.inr (Or.inr ?_)
  have hx : a ^^^ b < 2 ^ 64 := Nat.xor_lt_two_pow ha64 hb64
  have hmask : ∀ k : Nat, k < 2 ^ 32 → cmp_loop ((a ^^^ b) &&& k) 0 ≠ 64 := by
    intro k hk
    have := cmp_loop_le_32 ((a ^^^ b) &&& k) (lt_of_le_of_lt Nat.and_le_right hk)
    omega
  rw [hash_cmp_nonzero m a b ha hb] at h
  split at h
  · exact absurd h (hmask _ (by decide))
  · exact absurd h (hmask _ (by decide))
  · exact absurd h (hmask _ (by decide))
  · exact absurd h (hmask _ (by decide))
  · rename_i h1 h2 h3 h4
    refine ⟨⟨fun e => h1 e, fun e => h2 e, fun e => h3 e, fun e => h4 e⟩, ?_⟩
    rw [cmp_loop_eq_popcount64 _ hx] at h
    exact popcount64_full _ hx h

theorem hash_cmp_max_only_if_witness :
    0xFFFFFFFF00000000 < 2 ^ 64 ∧ 0x00000000FFFFFFFF < 2 ^ 64 ∧
    hash_cmp 0 0xFFFFFFFF00000000 0x00000000FFFFFFFF = 64 ∧
    ((0xFFFFFFFF00000000 : Nat) = 0 ∨ (0x00000000FFFFFFFF : Nat) = 0 ∨
      (((0 : Int) ≠ 1 ∧ (0 : Int) ≠ 2 ∧ (0 : Int) ≠ 3 ∧ (0 : Int) ≠ 4) ∧
        0xFFFFFFFF00000000 ^^^ 0x00000000FFFFFFFF = 2 ^ 64 - 1)) := by
  have h64 : hash_cmp 0 0xFFFFFFFF00000000 0x00000000FFFFFFFF = 64 := by
    rw [hash_cmp_nonzero 0 _ _ (by decide) (by decide)]
    show cmp_loop (0xFFFFFFFF00000000 ^^^ 0x00000000FFFFFFFF) 0 = 64
    rw [cmp_loop_eq_bitsum 64 _ _ (by decide)]
    decide
  exact ⟨by decide, by decide, h64,
    hash_cmp_max_only_if 0 0xFFFFFFFF00000000 0x00000000FFFFFFFF (by decide) (by decide) h64⟩

/-- C8: symmetry.  In every mode and for all fingerprints, zero or not,
`hash_cmp a b = hash_cmp b a`. -/
theorem hash_cmp_symm (m : Int) (a b : Nat) : hash_cmp m a b = hash_cmp m b a := by
  simp only [hash_cmp, Nat.xor_comm a b, or_comm]

/-- C9: identity.  In every mode a non-zero fingerprint is at distance 0
from itself. -/
theorem hash_cmp_self (m : Int) (a : Nat) (ha : a ≠ 0) : hash_cmp m a a = 0 := by
  have h0 : cmp_loop 0 0 = 0 := by rw [cmp_loop]; simp
  rw [hash_cmp_nonzero m a a ha ha]
  split <;> simp [Nat.xor_self, h0]

theorem hash_cmp_self_witness : (5 : Nat) ≠ 0 ∧ hash_cmp 3 5 5 = 0 :=
  ⟨by decide, hash_cmp_self 3 5 (by decide)⟩

/-- C10: masking monotonicity.  For every mode in 1..4 and all fingerprints,
the distance under that mode is at most the distance under mode 0. -/
theorem hash_cmp_mask_le_full (m : Int) (a b : Nat) (hm : m = 1 ∨ m = 2 ∨ m = 3 ∨ m = 4) :
    hash_cmp m a b ≤ hash_cmp 0 a b := by
  by_cases h : a = 0 ∨ b = 0
  · simp [hash_cmp, h]
  · have ha : a ≠ 0 := fun e => h (Or.inl e)
    have hb : b ≠ 0 := fun e => h (Or.inr e)
    rw [hash_cmp_nonzero m a b ha hb, hash_cmp_nonzero 0 a b ha hb]
    show _ ≤ cmp_loop (a ^^^ b) 0
    rcases hm with rfl | rfl | rfl | rfl <;> exact cmp_loop_and_le _ _

theorem hash_cmp_mask_le_full_witness :
    ((3 : Int) = 1 ∨ (3 : Int) = 2 ∨ (3 : Int) = 3 ∨ (3 : Int) = 4) ∧
    hash_cmp 3 0xFF 0x0F ≤ hash_cmp 0 0xFF 0x0F :=
  ⟨by decide, hash_cmp_mask_le_full 3 0xFF 0x0F (by decide)⟩

/-! ## Fingerprinting services: lemmas on the cache blocks -/

theorem cache_get_set_same (c : Cache) (file : String) (time : Int) (kind h : Nat) :
    cache_get (cache_set c file time kind h) file time kind = some h := by
  simp [cache_get, cache_set]

theorem cache_set_no_zero (c : Cache) (file : String) (time : Int) (kind h : Nat)
    (hh : h ≠ 0) (hc : ∀ k, c k ≠ some 0) :
    ∀ k, cache_set c file time kind h k ≠ some 0 := by
  intro k
  unfold cache_set
  split
  · intro e; exact hh (Option.some.inj e)
  · exact hc k

theorem decode_calls_append (s t : List Event) :
    decode_calls (s ++ t) = decode_calls s + decode_calls t := by
  simp [decode_calls, List.countP_append]

theorem cache_writes_append (s t : List Event) :
    cache_writes (s ++ t) = cache_writes s ++ cache_writes t := by
  simp [cache_writes, List.filterMap_append]

/-- The lookup block neither changes the cache nor writes to it, and calls no
pixel source. -/
theorem cache_probe_frame (w : World) (file : String) (time : Int) :
    (cache_probe w file time).2.g_cache = w.g_cache ∧
    cache_writes (cache_probe w file time).2.trace = cache_writes w.trace ∧
    decode_calls (cache_probe w file time).2.trace = decode_calls w.trace := by
  unfold cache_probe
  cases hg : w.g_cache with
  | none => simp [hg]
  | some c => simp [cache_writes_append, decode_calls_append, cache_writes, decode_calls]

theorem cache_probe_none (w : World) (file : String) (time : Int) (hg : w.g_cache = none) :
    cache_probe w file time = (none, w) := by
  unfold cache_probe
  rw [hg]

theorem cache_probe_some (w : World) (file : String) (time : Int) (c : Cache)
    (hg : w.g_cache = some c) :
    cache_probe w file time =
      (cache_get c file time FDUPVES_HASH_HASH,
        { g_cache := some c,
          trace := w.trace ++ [Event.cache_get file time FDUPVES_HASH_HASH] }) := by
  unfold cache_probe
  rw [hg]

/-- The store block, from a state `w2` that has the cache and the writes of
`w`, makes at most the one permitted write. -/
theorem cache_store_writes (w w2 : World) (file : String) (time : Int) (h : Nat)
    (hg : w2.g_cache = w.g_cache) (hw : cache_writes w2.trace = cache_writes w.trace) :
    writes_only_result file time w (Except.ok h, cache_store w2 file time h) := by
  unfold writes_only_result cache_store
  cases hc : w2.g_cache with
  | none => left; simp [hc, ← hg, hw]
  | some c =>
    by_cases hz : h = 0
    · left; simp [hz, hc, ← hg, hw]
    · right
      refine ⟨c, h, hz, rfl, by rw [← hg, hc], ?_, ?_⟩
      · simp [hz]
      · simp only [hz, ne_eq, not_false_eq_true, if_true]
        rw [cache_writes_append, hw]
        rfl

theorem cache_store_no_zero (w2 : World) (file : String) (time : Int) (h : Nat)
    (hz : no_zero_entry w2) : no_zero_entry (cache_store w2 file time h) := by
  unfold cache_store
  cases hc : w2.g_cache with
  | none => simpa using hz
  | some c =>
    by_cases h0 : h = 0
    · simpa [h0] using hz
    · simp only [h0, ne_eq, not_false_eq_true, if_true]
      intro c2 k hc2
      simp only [Option.some.injEq] at hc2
      subst hc2
      exact cache_set_no_zero c file time _ h h0 (fun k => hz c k hc) k

/-! ## Fingerprint function: a returned fingerprint is never zero -/

theorem sum_add_le_of_lt (g : Nat → Nat) (m : Nat) :
    ∀ n : Nat, (∀ i, i < n → g i + 1 ≤ m) → ((List.range n).map g).sum + n ≤ n * m := by
  intro n
  induction n with
  | zero => intro _; simp
  | succ n ih =>
    intro h
    have h1 := ih (fun i hi => h i (by omega))
    have h2 := h n (by omega)
    rw [List.range_succ, List.map_append, List.sum_append, Nat.succ_mul]
    simp only [List.map_cons, List.map_nil, List.sum_cons, List.sum_nil]
    omega

/-- Some cell reaches the truncated mean. -/
theorem exists_ge_mean (g : Nat → Nat) (n : Nat) (hn : 0 < n) :
    ∃ i, i < n ∧ g i ≥ ((List.range n).map g).sum / n := by
  by_contra hcon
  have hall : ∀ i, i < n → g i + 1 ≤ ((List.range n).map g).sum / n := by
    intro i hi
    by_contra hlt
    exact hcon ⟨i, hi, by omega⟩
  have h1 := sum_add_le_of_lt g _ n hall
  have h2 := Nat.mul_div_le ((List.range n).map g).sum n
  omega

/-- Whenever the threshold loop returns, every cell that reaches the average
has its bit set in the result. -/
theorem hash_loop_bits (grays : List Nat) (avg : Nat) :
    ∀ (n h : Nat), (List.range n).foldlM (hash_step grays avg) 0 = Except.ok h →
      ∀ i, i < n → grays.getD i 0 ≥ avg → h.testBit i = true := by
  intro n
  induction n with
  | zero => intro h _ i hi; omega
  | succ n ih =>
    intro h hok i hi hge
    rw [List.range_succ, List.foldlM_append] at hok
    cases hprev : (List.range n).foldlM (hash_step grays avg) 0 with
    | error f => rw [hprev] at hok; cases hok
    | ok h0 =>
      rw [hprev] at hok
      have hstep : hash_step grays avg h0 n = Except.ok h := by
        have : List.foldlM (hash_step grays avg) h0 [n] = Except.ok h := hok
        rw [List.foldlM_cons] at this
        cases hs : hash_step grays avg h0 n with
        | error f => rw [hs] at this; cases this
        | ok h1 =>
          rw [hs] at this
          exact this
      by_cases hg : grays.getD n 0 ≥ avg
      · by_cases hn : n < HASH_BITS
        · unfold hash_step at hstep
          rw [if_pos hg, if_pos hn] at hstep
          have hh : h = h0 ||| (1 <<< n) := (Except.ok.inj hstep).symm
          subst hh
          rw [Nat.testBit_or, Nat.one_shiftLeft, Nat.testBit_two_pow]
          by_cases hin : i = n
          · subst hin; simp
          · rw [ih h0 hprev i (by omega) hge]; simp
        · unfold hash_step at hstep
          rw [if_pos hg, if_neg hn] at hstep
          cases hstep
      · rw [hash_step_clear grays avg h0 n hg] at hstep
        have hh : h = h0 := (Except.ok.inj hstep).symm
        subst hh
        have hin : i ≠ n := by
          intro e; subst e; exact hg hge
        exact ih h hprev i (by omega) hge

/-- Every fingerprint that `pixbuf_hash` returns is non-zero. -/
theorem pixbuf_hash_ne_zero (pb : GdkPixbuf) (h : Nat) (hok : pixbuf_hash pb = Except.ok h) :
    h ≠ 0 := by
  unfold pixbuf_hash at hok
  split at hok
  · cases hok
  split at hok
  · cases hok
  simp only at hok
  split at hok
  · cases hok
  rename_i hoff
  rw [gray_sum_eq] at hok
  obtain ⟨i, hi, hge⟩ :=
    exists_ge_mean (fun x => (gray_fill pb).1.getD x 0) (gray_fill pb).2 (by omega)
  have hbit := hash_loop_bits _ _ _ h hok i hi hge
  intro h0
  subst h0
  simp at hbit

/-- The grid that `buffer_hash` builds: 8x8 RGB, 3 channels, stride 24. -/
theorem buffer_hash_eq (buffer : Nat → Fin 256) (size : Nat) :
    buffer_hash buffer size =
      pixbuf_hash { colorspace := GDK_COLORSPACE_RGB, bits_per_sample := 8, n_channels := 3,
                    width := 8, height := 8, rowstride := 24, pixels := buffer } := rfl

/-- On every buffer `buffer_hash` returns a non-zero value below `2 ^ 64`. -/
theorem buffer_hash_ok (buffer : Nat → Fin 256) (size : Nat) :
    ∃ h : Nat, buffer_hash buffer size = Except.ok h ∧ h ≠ 0 ∧ h < 2 ^ 64 := by
  rw [buffer_hash_eq]
  obtain ⟨h, hok, hlt, _⟩ :=
    pixbuf_hash_ok { colorspace := GDK_COLORSPACE_RGB, bits_per_sample := 8, n_channels := 3,
                     width := 8, height := 8, rowstride := 24, pixels := buffer }
      rfl rfl (by show 0 < 8 * 8; decide) (by show 8 * 8 ≤ 64; decide)
  exact ⟨h, hok, pixbuf_hash_ne_zero _ h hok, hlt⟩

/-! ## Fingerprinting services: the paths of file_hash and video_time_hash -/

/-- Cache hit: the cached value is returned after the lookup alone. -/
theorem file_hash_hit (load : String → Nat → Nat → Option GdkPixbuf) (err : Bool)
    (file : String)
    (w : World) (c : Cache) (v : Nat) (hc : w.g_cache = some c)
    (hv : cache_get c file 0 FDUPVES_HASH_HASH = some v) :
    file_hash load err file w =
      (Except.ok v, { g_cache := some c,
                      trace := w.trace ++ [Event.cache_get file 0 FDUPVES_HASH_HASH] }) := by
  unfold file_hash
  rw [cache_probe_some w file 0 c hc, hv]

/-- Everything `file_hash` does after a failed or absent cache lookup. -/
theorem file_hash_miss (load : String → Nat → Nat → Option GdkPixbuf) (err : Bool)
    (file : String) (w : World) (hmiss : (cache_probe w file 0).1 = none) :
    file_hash load err file w =
      match load file FDUPVES_HASH_LEN FDUPVES_HASH_LEN with
      | none =>
        (Except.ok 0,
          { g_cache := (cache_probe w file 0).2.g_cache,
            trace := (cache_probe w file 0).2.trace ++
              [Event.load_file file FDUPVES_HASH_LEN FDUPVES_HASH_LEN] })
      | some buf =>
        if err = true then
          (Except.ok 0,
            { g_cache := (cache_probe w file 0).2.g_cache,
              trace := (cache_probe w file 0).2.trace ++
                [Event.load_file file FDUPVES_HASH_LEN FDUPVES_HASH_LEN] })
        else
          match pixbuf_hash buf with
          | Except.error f =>
            (Except.error f,
              { g_cache := (cache_probe w file 0).2.g_cache,
                trace := (cache_probe w file 0).2.trace ++
                  [Event.load_file file FDUPVES_HASH_LEN FDUPVES_HASH_LEN] })
          | Except.ok h =>
            (Except.ok h, cache_store
              { g_cache := (cache_probe w file 0).2.g_cache,
                trace := (cache_probe w file 0).2.trace ++
                  [Event.load_file file FDUPVES_HASH_LEN FDUPVES_HASH_LEN] } file 0 h) := by
  unfold file_hash
  cases hp : cache_probe w file 0 with
  | mk r w1 =>
    rw [hp] at hmiss
    simp only at hmiss
    subst hmiss
    rfl

theorem cache_probe_miss_of (w : World) (file : String) (time : Int)
    (hmiss : ∀ c, w.g_cache = some c → cache_get c file time FDUPVES_HASH_HASH = none) :
    (cache_probe w file time).1 = none := by
  cases hg : w.g_cache with
  | none => rw [cache_probe_none w file time hg]
  | some c => rw [cache_probe_some w file time c hg]; exact hmiss c hg

/-- The error branch after a cache miss, taken when the pixel source reports
an error or `err` was non-null before the call: 0 is returned, the cache is
the same and no write is recorded. -/
theorem file_hash_fail (load : String → Nat → Nat → Option GdkPixbuf) (err : Bool)
    (file : String) (w : World)
    (hmiss : ∀ c, w.g_cache = some c → cache_get c file 0 FDUPVES_HASH_HASH = none)
    (hfail : load file FDUPVES_HASH_LEN FDUPVES_HASH_LEN = none ∨ err = true) :
    (file_hash load err file w).1 = Except.ok 0 ∧
    (file_hash load err file w).2.g_cache = w.g_cache ∧
    cache_writes (file_hash load err file w).2.trace = cache_writes w.trace ∧
    decode_calls (file_hash load err file w).2.trace = decode_calls w.trace + 1 := by
  obtain ⟨p1, p2, p3⟩ := cache_probe_frame w file 0
  have hbranch : file_hash load err file w =
      (Except.ok 0,
        { g_cache := (cache_probe w file 0).2.g_cache,
          trace := (cache_probe w file 0).2.trace ++
            [Event.load_file file FDUPVES_HASH_LEN FDUPVES_HASH_LEN] }) := by
    rw [file_hash_miss load err file w (cache_probe_miss_of w file 0 hmiss)]
    cases hl : load file FDUPVES_HASH_LEN FDUPVES_HASH_LEN with
    | none => rfl
    | some buf =>
      rcases hfail with hf | hf
      · rw [hl] at hf; cases hf
      · simp only [hf, if_true]
  rw [hbranch]
  refine ⟨rfl, p1, ?_, ?_⟩
  · show cache_writes (_ ++ _) = _
    rw [cache_writes_append, p2]
    simp [cache_writes]
  · show decode_calls (_ ++ _) = _
    rw [decode_calls_append, p3]
    simp [decode_calls]

/-- Everything `video_time_hash` does after a failed or absent cache lookup:
the buffer is hashed whatever the frame sampler reports, and the non-zero
result goes through the store block. -/
theorem video_time_hash_miss
    (shot : String → Int → Nat → Nat → (Nat → Fin 256) → Nat → Int × (Nat → Fin 256))
    (alloc : Nat → (Nat → Fin 256)) (file : String) (time : Int) (w : World)
    (hmiss : (cache_probe w file time).1 = none) :
    ∃ h : Nat, h ≠ 0 ∧ h < 2 ^ 64 ∧
      buffer_hash (shot file time FDUPVES_HASH_LEN FDUPVES_HASH_LEN
        (alloc (FDUPVES_HASH_LEN * FDUPVES_HASH_LEN * 3))
        (FDUPVES_HASH_LEN * FDUPVES_HASH_LEN * 3)).2
        (FDUPVES_HASH_LEN * FDUPVES_HASH_LEN * 3) = Except.ok h ∧
      video_time_hash shot alloc file time w =
        (Except.ok h, cache_store
          { g_cache := (cache_probe w file time).2.g_cache,
            trace := (cache_probe w file time).2.trace ++
              [Event.screenshot file time FDUPVES_HASH_LEN FDUPVES_HASH_LEN] } file time h) := by
  obtain ⟨h, hok, hne, hlt⟩ :=
    buffer_hash_ok (shot file time FDUPVES_HASH_LEN FDUPVES_HASH_LEN
        (alloc (FDUPVES_HASH_LEN * FDUPVES_HASH_LEN * 3))
        (FDUPVES_HASH_LEN * FDUPVES_HASH_LEN * 3)).2
      (FDUPVES_HASH_LEN * FDUPVES_HASH_LEN * 3)
  refine ⟨h, hne, hlt, hok, ?_⟩
  unfold video_time_hash
  cases hp : cache_probe w file time with
  | mk r w1 =>
    rw [hp] at hmiss
    simp only at hmiss
    subst hmiss
    simp only [hok]

theorem video_time_hash_hit
    (shot : String → Int → Nat → Nat → (Nat → Fin 256) → Nat → Int × (Nat → Fin 256))
    (alloc : Nat → (Nat → Fin 256)) (file : String) (time : Int) (w : World) (v : Nat)
    (hhit : (cache_probe w file time).1 = some v) :
    video_time_hash shot alloc file time w = (Except.ok v, (cache_probe w file time).2) := by
  unfold video_time_hash
  cases hp : cache_probe w file time with
  | mk r w1 =>
    rw [hp] at hhit
    simp only at hhit
    subst hhit
    rfl

theorem file_hash_hit_probe (load : String → Nat → Nat → Option GdkPixbuf) (err : Bool)
    (file : String)
    (w : World) (v : Nat) (hhit : (cache_probe w file 0).1 = some v) :
    file_hash load err file w = (Except.ok v, (cache_probe w file 0).2) := by
  unfold file_hash
  cases hp : cache_probe w file 0 with
  | mk r w1 =>
    rw [hp] at hhit
    simp only at hhit
    subst hhit
    rfl

/-! ## Fingerprinting services: claims -/

/-- C11, as stated, fails: with an empty cache configured and a pixel source
that reports an error, two consecutive calls of `file_hash` on the same path
issue two pixel-decode calls. -/
theorem file_hash_decodes_twice_after_failure :
    empty_world.g_cache = some empty_cache ∧ decode_calls empty_world.trace = 0 ∧
    decode_calls
      (file_hash failing_load false "a.png"
        (file_hash failing_load false "a.png" empty_world).2).2.trace
      = 2 :=
  ⟨rfl, by decide, by decide⟩

/-- C11, amended: with a cache configured, if the first call of `file_hash`
on a path returns a value and does not take the error branch (the cache holds
an entry for the path, or the pixel source delivers a grid and `err` is null
when tested), then the next call on the same path returns the same value,
whatever the pixel source and `err` would be then, and the two calls together
issue at most one pixel-decode call. -/
theorem file_hash_idempotent (load1 load2 : String → Nat → Nat → Option GdkPixbuf)
    (err1 err2 : Bool) (file : String) (w : World) (c : Cache) (v : Nat)
    (hc : w.g_cache = some c)
    (hsrc : cache_get c file 0 FDUPVES_HASH_HASH ≠ none ∨
      (load1 file FDUPVES_HASH_LEN FDUPVES_HASH_LEN ≠ none ∧ err1 = false))
    (hr : (file_hash load1 err1 file w).1 = Except.ok v) :
    (file_hash load2 err2 file (file_hash load1 err1 file w).2).1 = Except.ok v ∧
    decode_calls (file_hash load2 err2 file (file_hash load1 err1 file w).2).2.trace
      ≤ decode_calls w.trace + 1 := by
  cases hg : cache_get c file 0 FDUPVES_HASH_HASH with
  | some v1 =>
    rw [file_hash_hit load1 err1 file w c v1 hc hg] at hr ⊢
    have hv : v1 = v := Except.ok.inj hr
    subst hv
    rw [file_hash_hit load2 err2 file _ c v1 rfl hg]
    refine ⟨rfl, ?_⟩
    simp [decode_calls_append, decode_calls]
  | none =>
    have hmiss : (cache_probe w file 0).1 = none := by
      rw [cache_probe_some w file 0 c hc]; exact hg
    have hl : load1 file FDUPVES_HASH_LEN FDUPVES_HASH_LEN ≠ none ∧ err1 = false := by
      rcases hsrc with h | h
      · exact absurd hg h
      · exact h
    obtain ⟨buf, hb⟩ := Option.ne_none_iff_exists'.mp hl.1
    have he : ¬ (err1 = true) := by rw [hl.2]; decide
    rw [file_hash_miss load1 err1 file w hmiss, hb] at hr ⊢
    simp only [he, if_false] at hr ⊢
    cases hp : pixbuf_hash buf with
    | error f => rw [hp] at hr; cases hr
    | ok h =>
      rw [hp] at hr
      simp only at hr ⊢
      have hv : h = v := Except.ok.inj hr
      subst hv
      have hne : h ≠ 0 := pixbuf_hash_ne_zero buf h hp
      simp only [cache_probe_some w file 0 c hc, cache_store, hne, ne_eq, not_false_eq_true,
        if_true]
      rw [file_hash_hit load2 err2 file _ (cache_set c file 0 FDUPVES_HASH_HASH h) h rfl
        (cache_get_set_same c file 0 FDUPVES_HASH_HASH h)]
      refine ⟨rfl, ?_⟩
      simp [decode_calls_append, decode_calls]

theorem file_hash_idempotent_witness :
    empty_world.g_cache = some empty_cache ∧
    (cache_get empty_cache "a.png" 0 FDUPVES_HASH_HASH ≠ none ∨
      (gray_load "a.png" FDUPVES_HASH_LEN FDUPVES_HASH_LEN ≠ none ∧ false = false)) ∧
    (file_hash gray_load false "a.png" empty_world).1 = Except.ok 18446744073709551615 ∧
    (file_hash failing_load true "a.png" (file_hash gray_load false "a.png" empty_world).2).1
      = Except.ok 18446744073709551615 ∧
    decode_calls
      (file_hash failing_load true "a.png"
        (file_hash gray_load false "a.png" empty_world).2).2.trace
      ≤ decode_calls empty_world.trace + 1 := by
  have hr : (file_hash gray_load false "a.png" empty_world).1
      = Except.ok 18446744073709551615 := by
    rfl
  have hsrc : cache_get empty_cache "a.png" 0 FDUPVES_HASH_HASH ≠ none ∨
      (gray_load "a.png" FDUPVES_HASH_LEN FDUPVES_HASH_LEN ≠ none ∧ false = false) :=
    Or.inr ⟨by simp [gray_load], rfl⟩
  exact ⟨rfl, hsrc, hr,
    file_hash_idempotent gray_load failing_load false true "a.png" empty_world empty_cache _
      rfl hsrc hr⟩

/-- C12: when no cache entry exists for the path and the pixel source reports
an error, `file_hash` returns 0, leaves the cache as it was and records no
cache write; a second call that fails again does the same.  This holds
whatever `err` held before either call. -/
theorem file_hash_decode_failure (load1 load2 : String → Nat → Nat → Option GdkPixbuf)
    (err1 err2 : Bool)
    (file : String) (w : World)
    (hmiss : ∀ c, w.g_cache = some c → cache_get c file 0 FDUPVES_HASH_HASH = none)
    (h1 : load1 file FDUPVES_HASH_LEN FDUPVES_HASH_LEN = none)
    (h2 : load2 file FDUPVES_HASH_LEN FDUPVES_HASH_LEN = none) :
    ((file_hash load1 err1 file w).1 = Except.ok 0 ∧
      (file_hash load1 err1 file w).2.g_cache = w.g_cache ∧
      cache_writes (file_hash load1 err1 file w).2.trace = cache_writes w.trace) ∧
    ((file_hash load2 err2 file (file_hash load1 err1 file w).2).1 = Except.ok 0 ∧
      (file_hash load2 err2 file (file_hash load1 err1 file w).2).2.g_cache = w.g_cache ∧
      cache_writes (file_hash load2 err2 file (file_hash load1 err1 file w).2).2.trace
        = cache_writes w.trace) := by
  obtain ⟨a1, a2, a3, _⟩ := file_hash_fail load1 err1 file w hmiss (Or.inl h1)
  have hmiss2 : ∀ c, (file_hash load1 err1 file w).2.g_cache = some c →
      cache_get c file 0 FDUPVES_HASH_HASH = none := by
    intro c hc
    rw [a2] at hc
    exact hmiss c hc
  obtain ⟨b1, b2, b3, _⟩ := file_hash_fail load2 err2 file _ hmiss2 (Or.inl h2)
  exact ⟨⟨a1, a2, a3⟩, ⟨b1, by rw [b2, a2], by rw [b3, a3]⟩⟩

theorem file_hash_decode_failure_witness :
    (∀ c, empty_world.g_cache = some c → cache_get c "a.png" 0 FDUPVES_HASH_HASH = none) ∧
    failing_load "a.png" FDUPVES_HASH_LEN FDUPVES_HASH_LEN = none ∧
    ((file_hash failing_load false "a.png" empty_world).1 = Except.ok 0 ∧
      (file_hash failing_load false "a.png" empty_world).2.g_cache = empty_world.g_cache ∧
      cache_writes (file_hash failing_load false "a.png" empty_world).2.trace
        = cache_writes empty_world.trace) ∧
    ((file_hash failing_load false "a.png" (file_hash failing_load false "a.png" empty_world).2).1
        = Except.ok 0 ∧
      (file_hash failing_load false "a.png" (file_hash failing_load false "a.png" empty_world).2).2.g_cache
        = empty_world.g_cache ∧
      cache_writes
        (file_hash failing_load false "a.png" (file_hash failing_load false "a.png" empty_world).2).2.trace
        = cache_writes empty_world.trace) := by
  have hmiss : ∀ c, empty_world.g_cache = some c →
      cache_get c "a.png" 0 FDUPVES_HASH_HASH = none := by
    intro c hc
    have : c = empty_cache := (Option.some.inj hc).symm
    subst this
    rfl
  exact ⟨hmiss, rfl,
    file_hash_decode_failure failing_load failing_load false false "a.png" empty_world hmiss
      rfl rfl⟩

/-- C13: when a cache is configured and holds `v` under the key of the path,
`file_hash` returns `v`, also for `v = 0`, makes no pixel-decode call and
leaves the cache unchanged: the only collaborator call is the lookup. -/
theorem file_hash_cache_hit (load : String → Nat → Nat → Option GdkPixbuf) (err : Bool)
    (file : String)
    (w : World) (c : Cache) (v : Nat) (hc : w.g_cache = some c)
    (hv : cache_get c file 0 FDUPVES_HASH_HASH = some v) :
    (file_hash load err file w).1 = Except.ok v ∧
    (file_hash load err file w).2.g_cache = w.g_cache ∧
    (file_hash load err file w).2.trace
      = w.trace ++ [Event.cache_get file 0 FDUPVES_HASH_HASH] ∧
    decode_calls (file_hash load err file w).2.trace = decode_calls w.trace ∧
    cache_writes (file_hash load err file w).2.trace = cache_writes w.trace := by
  rw [file_hash_hit load err file w c v hc hv]
  refine ⟨rfl, hc.symm, rfl, ?_, ?_⟩
  · simp [decode_calls_append, decode_calls]
  · simp [cache_writes_append, cache_writes]

theorem file_hash_cache_hit_witness :
    (({ g_cache := some (cache_set empty_cache "a.png" 0 FDUPVES_HASH_HASH 0), trace := [] }
        : World).g_cache
      = some (cache_set empty_cache "a.png" 0 FDUPVES_HASH_HASH 0)) ∧
    cache_get (cache_set empty_cache "a.png" 0 FDUPVES_HASH_HASH 0) "a.png" 0 FDUPVES_HASH_HASH
      = some 0 ∧
    (file_hash gray_load false "a.png"
      { g_cache := some (cache_set empty_cache "a.png" 0 FDUPVES_HASH_HASH 0), trace := [] }).1
      = Except.ok 0 :=
  ⟨rfl, cache_get_set_same _ _ _ _ _,
    (file_hash_cache_hit gray_load false "a.png"
      { g_cache := some (cache_set empty_cache "a.png" 0 FDUPVES_HASH_HASH 0), trace := [] }
      (cache_set empty_cache "a.png" 0 FDUPVES_HASH_HASH 0) 0 rfl
      (cache_get_set_same _ _ _ _ _)).1⟩

/-- C14: the claim asks for 0 and no cache write when the frame sampler fails.
With an empty cache configured, a sampler that fails (status -1, buffer
untouched) and fresh memory of zero bytes, `video_time_hash` returns
`0xFFFFFFFFFFFFFFFF` and stores it under the key of the frame: one cache write
is recorded and a lookup in the resulting cache finds the value. -/
theorem video_time_hash_ignores_sampler_failure :
    (failing_screenshot "clip.avi" 7 8 8 (zero_malloc 192) 192).1 = -1 ∧
    cache_get empty_cache "clip.avi" 7 FDUPVES_HASH_HASH = none ∧
    (video_time_hash failing_screenshot zero_malloc "clip.avi" 7 empty_world).1
      = Except.ok 18446744073709551615 ∧
    cache_writes (video_time_hash failing_screenshot zero_malloc "clip.avi" 7 empty_world).2.trace
      = [({ file := "clip.avi", time := 7, kind := FDUPVES_HASH_HASH }, 18446744073709551615)] ∧
    (cache_probe (video_time_hash failing_screenshot zero_malloc "clip.avi" 7 empty_world).2
      "clip.avi" 7).1 = some 18446744073709551615 := by
  refine ⟨rfl, rfl, ?_, ?_, ?_⟩
  · rfl
  · rfl
  · rfl

theorem no_zero_entry_of_cache_eq (w w2 : World) (hg : w2.g_cache = w.g_cache)
    (hz : no_zero_entry w) : no_zero_entry w2 := by
  intro c k hc
  rw [hg] at hc
  exact hz c k hc

/-- The state just after the pixel source or the frame sampler was called
has the cache and the cache writes of the state before the lookup. -/
theorem after_source_frame (w w2 : World) (file : String) (time : Int) (e : Event)
    (he : cache_writes [e] = [])
    (hg : w2.g_cache = (cache_probe w file time).2.g_cache)
    (ht : w2.trace = (cache_probe w file time).2.trace ++ [e]) :
    w2.g_cache = w.g_cache ∧ cache_writes w2.trace = cache_writes w.trace := by
  obtain ⟨p1, p2, _⟩ := cache_probe_frame w file time
  refine ⟨by rw [hg, p1], ?_⟩
  rw [ht, cache_writes_append, p2, he, List.append_nil]

theorem file_hash_writes (load : String → Nat → Nat → Option GdkPixbuf) (err : Bool)
    (file : String)
    (w : World) :
    writes_only_result file 0 w (file_hash load err file w) ∧
    (no_zero_entry w → no_zero_entry (file_hash load err file w).2) := by
  obtain ⟨p1, p2, _⟩ := cache_probe_frame w file 0
  obtain ⟨q1, q2⟩ := after_source_frame w
    ⟨(cache_probe w file 0).2.g_cache,
      (cache_probe w file 0).2.trace ++ [Event.load_file file FDUPVES_HASH_LEN FDUPVES_HASH_LEN]⟩
    file 0 (Event.load_file file FDUPVES_HASH_LEN FDUPVES_HASH_LEN) rfl rfl rfl
  cases hp : (cache_probe w file 0).1 with
  | some v =>
    rw [file_hash_hit_probe load err file w v hp]
    exact ⟨Or.inl ⟨p1, p2⟩, no_zero_entry_of_cache_eq w _ p1⟩
  | none =>
    rw [file_hash_miss load err file w hp]
    cases hl : load file FDUPVES_HASH_LEN FDUPVES_HASH_LEN with
    | none => exact ⟨Or.inl ⟨q1, q2⟩, no_zero_entry_of_cache_eq w _ q1⟩
    | some buf =>
      simp only
      by_cases he : err = true
      · rw [if_pos he]
        exact ⟨Or.inl ⟨q1, q2⟩, no_zero_entry_of_cache_eq w _ q1⟩
      · rw [if_neg he]
        cases hh : pixbuf_hash buf with
        | error f => exact ⟨Or.inl ⟨q1, q2⟩, no_zero_entry_of_cache_eq w _ q1⟩
        | ok h =>
          exact ⟨cache_store_writes w _ file 0 h q1 q2,
            fun hz => cache_store_no_zero _ file 0 h (no_zero_entry_of_cache_eq w _ q1 hz)⟩

theorem video_time_hash_writes
    (shot : String → Int → Nat → Nat → (Nat → Fin 256) → Nat → Int × (Nat → Fin 256))
    (alloc : Nat → (Nat → Fin 256)) (file : String) (time : Int) (w : World) :
    writes_only_result file time w (video_time_hash shot alloc file time w) ∧
    (no_zero_entry w → no_zero_entry (video_time_hash shot alloc file time w).2) := by
  obtain ⟨p1, p2, _⟩ := cache_probe_frame w file time
  obtain ⟨q1, q2⟩ := after_source_frame w
    ⟨(cache_probe w file time).2.g_cache,
      (cache_probe w file time).2.trace ++
        [Event.screenshot file time FDUPVES_HASH_LEN FDUPVES_HASH_LEN]⟩
    file time (Event.screenshot file time FDUPVES_HASH_LEN FDUPVES_HASH_LEN) rfl rfl rfl
  cases hp : (cache_probe w file time).1 with
  | some v =>
    rw [video_time_hash_hit shot alloc file time w v hp]
    exact ⟨Or.inl ⟨p1, p2⟩, no_zero_entry_of_cache_eq w _ p1⟩
  | none =>
    obtain ⟨h, _, _, _, heq⟩ := video_time_hash_miss shot alloc file time w hp
    rw [heq]
    exact ⟨cache_store_writes w _ file time h q1 q2,
      fun hz => cache_store_no_zero _ file time h (no_zero_entry_of_cache_eq w _ q1 hz)⟩

/-- C15: from every state, for every behaviour of the pixel source, the frame
sampler and the allocator, and whatever `err` holds, a call of `file_hash` or
`video_time_hash` either writes nothing to the cache or makes exactly one
write, of the value it returns, which is then non-zero, under the key (path,
timestamp, fingerprint kind), with timestamp 0 for `file_hash`; and a cache
without a zero-valued entry before the call has none after it. -/
theorem services_never_store_zero
    (load : String → Nat → Nat → Option GdkPixbuf) (err : Bool)
    (shot : String → Int → Nat → Nat → (Nat → Fin 256) → Nat → Int × (Nat → Fin 256))
    (alloc : Nat → (Nat → Fin 256)) (file : String) (time : Int) (w : World) :
    (writes_only_result file 0 w (file_hash load err file w) ∧
      (no_zero_entry w → no_zero_entry (file_hash load err file w).2)) ∧
    (writes_only_result file time w (video_time_hash shot alloc file time w) ∧
      (no_zero_entry w → no_zero_entry (video_time_hash shot alloc file time w).2)) :=
  ⟨file_hash_writes load err file w, video_time_hash_writes shot alloc file time w⟩

/-! ## Fingerprint function: lemmas for uniform, single-cell and equal grids -/

theorem spec_luma_eq_rgb_luma (pb : GdkPixbuf) (x y : Nat) :
    spec_luma pb x y = rgb_luma (pixel_rgb pb x y) := rfl

theorem mean_luma_eq_spec_avg (pb : GdkPixbuf) (hw : pb.width = 8) (hh : pb.height = 8) :
    mean_luma pb = spec_avg pb := by
  unfold mean_luma spec_avg
  rw [hw, hh]
  have hfun : luma_at pb = fun i => spec_luma pb (i % 8) (i / 8) := by
    funext i
    simp only [luma_at, hw]
  rw [hfun, sum_grid8 (fun x y => spec_luma pb x y)]

theorem luma_at_eq (pb : GdkPixbuf) (hw : pb.width = 8) (i : Nat) :
    luma_at pb i = rgb_luma (pixel_rgb pb (i % 8) (i / 8)) := by
  simp only [luma_at, hw, spec_luma_eq_rgb_luma]

theorem sum_map_range_const (g : Nat → Nat) (v : Nat) :
    ∀ n : Nat, (∀ i, i < n → g i = v) → ((List.range n).map g).sum = n * v := by
  intro n
  induction n with
  | zero => intro _; simp
  | succ n ih =>
    intro h
    rw [List.range_succ, List.map_append, List.sum_append, ih (fun i hi => h i (by omega)),
      Nat.succ_mul]
    simp [h n (by omega)]

theorem sum_map_range_single (g : Nat → Nat) (v i0 : Nat) :
    ∀ n : Nat, (∀ i, i < n → g i = if i = i0 then v else 0) →
      ((List.range n).map g).sum = if i0 < n then v else 0 := by
  intro n
  induction n with
  | zero => intro _; simp
  | succ n ih =>
    intro h
    rw [List.range_succ, List.map_append, List.sum_append, ih (fun i hi => h i (by omega))]
    simp only [List.map_cons, List.map_nil, List.sum_cons, List.sum_nil, h n (by omega)]
    by_cases h1 : i0 < n
    · have h2 : n ≠ i0 := by omega
      have h3 : i0 < n + 1 := by omega
      simp [h1, h2, h3]
    · by_cases h2 : n = i0
      · have h3 : i0 < n + 1 := by omega
        simp [h1, h2, h3]
      · have h3 : ¬ i0 < n + 1 := by omega
        simp [h1, h2, h3]

/-- Two 8x8 grids with the same luma in every cell have the same fingerprint. -/
theorem pixbuf_hash_congr (pb1 pb2 : GdkPixbuf)
    (hc1 : pb1.colorspace = GDK_COLORSPACE_RGB) (hb1 : pb1.bits_per_sample = 8)
    (hw1 : pb1.width = 8) (hh1 : pb1.height = 8)
    (hc2 : pb2.colorspace = GDK_COLORSPACE_RGB) (hb2 : pb2.bits_per_sample = 8)
    (hw2 : pb2.width = 8) (hh2 : pb2.height = 8)
    (hl : ∀ i, i < 64 → luma_at pb1 i = luma_at pb2 i) :
    pixbuf_hash pb1 = pixbuf_hash pb2 := by
  have hn1 : pb1.width * pb1.height = 64 := by rw [hw1, hh1]
  have hn2 : pb2.width * pb2.height = 64 := by rw [hw2, hh2]
  obtain ⟨h1, ok1, _, bits1⟩ := pixbuf_hash_ok pb1 hc1 hb1 (by omega) (by omega)
  obtain ⟨h2, ok2, _, bits2⟩ := pixbuf_hash_ok pb2 hc2 hb2 (by omega) (by omega)
  have hmean : mean_luma pb1 = mean_luma pb2 := by
    unfold mean_luma
    rw [hn1, hn2]
    congr 2
    apply List.map_congr_left
    intro i hi
    exact hl i (List.mem_range.mp hi)
  rw [ok1, ok2]
  congr 1
  apply Nat.eq_of_testBit_eq
  intro i
  rw [bits1 i, bits2 i, hn1, hn2, hmean]
  by_cases hi : i < 64
  · rw [hl i hi]
  · simp [hi]

/-- Fingerprint of an 8x8 grid from a description of its cell lumas:
bit `i` is set when `i < 64` and `g i` reaches the mean of `g`. -/
theorem pixbuf_hash_of_lumas (pb : GdkPixbuf) (g : Nat → Nat)
    (hc : pb.colorspace = GDK_COLORSPACE_RGB) (hb : pb.bits_per_sample = 8)
    (hw : pb.width = 8) (hh : pb.height = 8)
    (hl : ∀ i, i < 64 → luma_at pb i = g i) :
    mean_luma pb = ((List.range 64).map g).sum / 64 ∧
    ∃ h : Nat, pixbuf_hash pb = Except.ok h ∧
      ∀ i, h.testBit i =
        (decide (i < 64) && decide (g i ≥ ((List.range 64).map g).sum / 64)) := by
  have hn : pb.width * pb.height = 64 := by rw [hw, hh]
  have hmean : mean_luma pb = ((List.range 64).map g).sum / 64 := by
    unfold mean_luma
    rw [hn]
    congr 2
    apply List.map_congr_left
    intro i hi
    exact hl i (List.mem_range.mp hi)
  obtain ⟨h, hok, _, bits⟩ := pixbuf_hash_ok pb hc hb (by omega) (by omega)
  refine ⟨hmean, h, hok, ?_⟩
  intro i
  rw [bits i, hn, hmean]
  by_cases hi : i < 64
  · rw [hl i hi]
  · simp [hi]

/-! ## Fingerprint function: further claims about pixbuf_hash -/

/-- C16: for every 8x8 RGB grid whose 64 pixels all have the same colour,
every cell's luma equals the average and `pixbuf_hash` returns
`0xFFFFFFFFFFFFFFFF`. -/
theorem pixbuf_hash_uniform (pb : GdkPixbuf)
    (hc : pb.colorspace = GDK_COLORSPACE_RGB) (hb : pb.bits_per_sample = 8)
    (hw : pb.width = 8) (hh : pb.height = 8) (rgb : Fin 256 × Fin 256 × Fin 256)
    (hpix : ∀ x, x < 8 → ∀ y, y < 8 → pixel_rgb pb x y = rgb) :
    (∀ x, x < 8 → ∀ y, y < 8 → spec_luma pb x y = spec_avg pb) ∧
    pixbuf_hash pb = Except.ok 0xFFFFFFFFFFFFFFFF := by
  have hl : ∀ i, i < 64 → luma_at pb i = (fun _ => rgb_luma rgb) i := by
    intro i hi
    rw [luma_at_eq pb hw i, hpix (i % 8) (by omega) (i / 8) (by omega)]
  obtain ⟨hmean, h, hok, bits⟩ := pixbuf_hash_of_lumas pb _ hc hb hw hh hl
  have hsum : ((List.range 64).map (fun _ : Nat => rgb_luma rgb)).sum / 64 = rgb_luma rgb := by
    rw [sum_map_range_const (fun _ => rgb_luma rgb) (rgb_luma rgb) 64 (fun _ _ => rfl)]
    omega
  rw [hsum] at hmean bits
  constructor
  · intro x hx y hy
    rw [← mean_luma_eq_spec_avg pb hw hh, hmean, spec_luma_eq_rgb_luma, hpix x hx y hy]
  · rw [hok]
    congr 1
    apply Nat.eq_of_testBit_eq
    intro i
    have h64 : (0xFFFFFFFFFFFFFFFF : Nat) = 2 ^ 64 - 1 := by decide
    rw [bits i, h64, Nat.testBit_two_pow_sub_one]
    simp

theorem pixbuf_hash_uniform_witness :
    gray_pixbuf.colorspace = GDK_COLORSPACE_RGB ∧ gray_pixbuf.bits_per_sample = 8 ∧
    gray_pixbuf.width = 8 ∧ gray_pixbuf.height = 8 ∧
    (∀ x, x < 8 → ∀ y, y < 8 → pixel_rgb gray_pixbuf x y = (128, 128, 128)) ∧
    rgb_luma (128, 128, 128) = 128 ∧
    (∀ x, x < 8 → ∀ y, y < 8 → spec_luma gray_pixbuf x y = spec_avg gray_pixbuf) ∧
    pixbuf_hash gray_pixbuf = Except.ok 0xFFFFFFFFFFFFFFFF :=
  ⟨rfl, rfl, rfl, rfl, fun _ _ _ _ => rfl, by decide,
    pixbuf_hash_uniform gray_pixbuf rfl rfl rfl rfl (128, 128, 128) (fun _ _ _ _ => rfl)⟩

/-- C17: for an 8x8 RGB grid that is white (255,255,255) at one cell
`(x0, y0)` and black (0,0,0) in the other 63, the luma of the white cell is
255, the average is 3 and `pixbuf_hash` returns `2 ^ (8 * y0 + x0)`; for the
top-left cell that is exactly 1. -/
theorem pixbuf_hash_single_white (pb : GdkPixbuf)
    (hc : pb.colorspace = GDK_COLORSPACE_RGB) (hb : pb.bits_per_sample = 8)
    (hw : pb.width = 8) (hh : pb.height = 8) (x0 y0 : Nat) (hx0 : x0 < 8) (hy0 : y0 < 8)
    (hwhite : pixel_rgb pb x0 y0 = (255, 255, 255))
    (hblack : ∀ x, x < 8 → ∀ y, y < 8 → (x ≠ x0 ∨ y ≠ y0) → pixel_rgb pb x y = (0, 0, 0)) :
    spec_luma pb x0 y0 = 255 ∧ spec_avg pb = 3 ∧
    pixbuf_hash pb = Except.ok (2 ^ (8 * y0 + x0)) := by
  have hl : ∀ i, i < 64 →
      luma_at pb i = (fun i => if i = 8 * y0 + x0 then 255 else 0) i := by
    intro i hi
    rw [luma_at_eq pb hw i]
    by_cases he : i = 8 * y0 + x0
    · have hx : i % 8 = x0 := by omega
      have hy : i / 8 = y0 := by omega
      rw [hx, hy, hwhite]
      simp only [he, if_true]
      decide
    · have hne : i % 8 ≠ x0 ∨ i / 8 ≠ y0 := by omega
      rw [hblack (i % 8) (by omega) (i / 8) (by omega) hne]
      simp only [he, if_false]
      decide
  obtain ⟨hmean, h, hok, bits⟩ := pixbuf_hash_of_lumas pb _ hc hb hw hh hl
  have hsum : ((List.range 64).map (fun i => if i = 8 * y0 + x0 then 255 else 0)).sum / 64
      = 3 := by
    rw [sum_map_range_single _ 255 (8 * y0 + x0) 64 (fun _ _ => rfl),
      if_pos (by omega)]
  rw [hsum] at hmean bits
  refine ⟨?_, ?_, ?_⟩
  · rw [spec_luma_eq_rgb_luma, hwhite]
    decide
  · rw [← mean_luma_eq_spec_avg pb hw hh, hmean]
  · rw [hok]
    congr 1
    apply Nat.eq_of_testBit_eq
    intro i
    rw [bits i, Nat.testBit_two_pow]
    by_cases he : i = 8 * y0 + x0
    · subst he
      have hi : 8 * y0 + x0 < 64 := by omega
      simp [hi]
    · have hne : ¬ (8 * y0 + x0 = i) := fun e => he e.symm
      simp [he, hne]

theorem pixbuf_hash_single_white_witness :
    (white_cell_pixbuf 0 0).colorspace = GDK_COLORSPACE_RGB ∧
    (white_cell_pixbuf 0 0).bits_per_sample = 8 ∧
    (white_cell_pixbuf 0 0).width = 8 ∧ (white_cell_pixbuf 0 0).height = 8 ∧
    pixel_rgb (white_cell_pixbuf 0 0) 0 0 = (255, 255, 255) ∧
    (∀ x, x < 8 → ∀ y, y < 8 → (x ≠ 0 ∨ y ≠ 0) →
      pixel_rgb (white_cell_pixbuf 0 0) x y = (0, 0, 0)) ∧
    spec_luma (white_cell_pixbuf 0 0) 0 0 = 255 ∧ spec_avg (white_cell_pixbuf 0 0) = 3 ∧
    pixbuf_hash (white_cell_pixbuf 0 0) = Except.ok 1 :=
  ⟨rfl, rfl, rfl, rfl, by decide, by decide,
    pixbuf_hash_single_white (white_cell_pixbuf 0 0) rfl rfl rfl rfl 0 0 (by decide) (by decide)
      (by decide) (by decide)⟩

/-- C18, as stated, fails: the 1x1 RGB grid has one cell, not 64, and
`pixbuf_hash` returns the fingerprint 1 for it instead of aborting. -/
theorem pixbuf_hash_accepts_one_cell :
    one_cell_pixbuf.width * one_cell_pixbuf.height ≠ 64 ∧
    pixbuf_hash one_cell_pixbuf = Except.ok 1 :=
  ⟨by decide, rfl⟩

/-- C18, amended: `pixbuf_hash` checks the colorspace and the sample width
and not the grid dimension.  For every grid with between 1 and 64 cells it
returns a fingerprint below `2 ^ (width * height)` when the grid is RGB with
8 bits per sample, and fails its precondition check exactly otherwise. -/
theorem pixbuf_hash_checks_format_only (pb : GdkPixbuf)
    (hpos : 0 < pb.width * pb.height) (hle : pb.width * pb.height ≤ 64) :
    ((pb.colorspace = GDK_COLORSPACE_RGB ∧ pb.bits_per_sample = 8) →
      ∃ h : Nat, pixbuf_hash pb = Except.ok h ∧ h < 2 ^ (pb.width * pb.height)) ∧
    (¬ (pb.colorspace = GDK_COLORSPACE_RGB ∧ pb.bits_per_sample = 8) →
      pixbuf_hash pb = Except.error Fault.assertion) := by
  constructor
  · intro hfmt
    obtain ⟨h, hok, hlt, _⟩ := pixbuf_hash_ok pb hfmt.1 hfmt.2 hpos hle
    exact ⟨h, hok, hlt⟩
  · intro hfmt
    unfold pixbuf_hash
    by_cases hc : pb.colorspace = GDK_COLORSPACE_RGB
    · have hb : pb.bits_per_sample ≠ 8 := fun e => hfmt ⟨hc, e⟩
      rw [if_neg (fun hne => hne hc), if_pos hb]
    · rw [if_pos hc]

theorem pixbuf_hash_checks_format_only_witness :
    0 < one_cell_pixbuf.width * one_cell_pixbuf.height ∧
    one_cell_pixbuf.width * one_cell_pixbuf.height ≤ 64 ∧
    ((one_cell_pixbuf.colorspace = GDK_COLORSPACE_RGB ∧ one_cell_pixbuf.bits_per_sample = 8) →
      ∃ h : Nat, pixbuf_hash one_cell_pixbuf = Except.ok h ∧
        h < 2 ^ (one_cell_pixbuf.width * one_cell_pixbuf.height)) ∧
    (¬ (one_cell_pixbuf.colorspace = GDK_COLORSPACE_RGB ∧ one_cell_pixbuf.bits_per_sample = 8) →
      pixbuf_hash one_cell_pixbuf = Except.error Fault.assertion) :=
  ⟨by decide, by decide,
    pixbuf_hash_checks_format_only one_cell_pixbuf (by decide) (by decide)⟩

/-- When `err` is null at the test, a cache is configured with no entry for
the path and the pixel source delivers a grid on which `pixbuf_hash` returns,
`file_hash` returns that value, which is non-zero, and writes it to the cache
under the key of the path. -/
theorem file_hash_stores_decoded (load : String → Nat → Nat → Option GdkPixbuf)
    (file : String) (w : World) (c : Cache) (pb : GdkPixbuf) (h : Nat)
    (hcache : w.g_cache = some c)
    (hmiss : cache_get c file 0 FDUPVES_HASH_HASH = none)
    (hload : load file FDUPVES_HASH_LEN FDUPVES_HASH_LEN = some pb)
    (hok : pixbuf_hash pb = Except.ok h) :
    h ≠ 0 ∧ (file_hash load false file w).1 = Except.ok h ∧
    (file_hash load false file w).2.g_cache
      = some (cache_set c file 0 FDUPVES_HASH_HASH h) ∧
    (cache_probe (file_hash load false file w).2 file 0).1 = some h ∧
    cache_writes (file_hash load false file w).2.trace = cache_writes w.trace ++
      [({ file := file, time := 0, kind := FDUPVES_HASH_HASH }, h)] := by
  have hne : h ≠ 0 := pixbuf_hash_ne_zero pb h hok
  refine ⟨hne, ?_⟩
  have hp : (cache_probe w file 0).1 = none := by
    rw [cache_probe_some w file 0 c hcache]; exact hmiss
  rw [file_hash_miss load false file w hp, hload]
  simp only [hok, cache_probe_some w file 0 c hcache, cache_store, hne, ne_eq,
    not_false_eq_true, if_true, true_and, Bool.false_eq_true, if_false]
  constructor
  · rw [cache_probe_some _ file 0 _ rfl]
    exact cache_get_set_same c file 0 FDUPVES_HASH_HASH h
  · simp [cache_writes_append, cache_writes]

/-- C19: the claim asks that a successfully decoded image is always written
to the cache by `file_hash`.  With an empty cache configured and a pixel
source that decodes the path to the mid-gray 8x8 grid, a call in which `err`
is null returns the fingerprint `0xFFFFFFFFFFFFFFFF`, but a call in which the
uninitialised `err` is non-null takes the error branch: `file_hash` returns
0, records no cache write, and a lookup afterwards still finds no entry. -/
theorem file_hash_drops_decoded_image_when_err_set :
    gray_load "a.png" FDUPVES_HASH_LEN FDUPVES_HASH_LEN = some gray_pixbuf ∧
    (file_hash gray_load false "a.png" empty_world).1 = Except.ok 0xFFFFFFFFFFFFFFFF ∧
    empty_world.g_cache = some empty_cache ∧
    cache_get empty_cache "a.png" 0 FDUPVES_HASH_HASH = none ∧
    (file_hash gray_load true "a.png" empty_world).1 = Except.ok 0 ∧
    cache_writes (file_hash gray_load true "a.png" empty_world).2.trace = [] ∧
    (cache_probe (file_hash gray_load true "a.png" empty_world).2 "a.png" 0).1 = none :=
  ⟨rfl, rfl, rfl, rfl, rfl, rfl, rfl⟩

/-- C20: two 8x8 RGB grids that carry the same (R, G, B) triple at every
`(x, y)` have the same fingerprint, whatever their channel counts, row
strides and remaining bytes (alpha, padding); and a tightly packed buffer
given to `buffer_hash` yields the fingerprint of any layout of the same
pixels.  No condition on the channel counts or strides is needed. -/
theorem pixbuf_hash_rgb_only (pb1 pb2 : GdkPixbuf)
    (hc1 : pb1.colorspace = GDK_COLORSPACE_RGB) (hb1 : pb1.bits_per_sample = 8)
    (hw1 : pb1.width = 8) (hh1 : pb1.height = 8)
    (hc2 : pb2.colorspace = GDK_COLORSPACE_RGB) (hb2 : pb2.bits_per_sample = 8)
    (hw2 : pb2.width = 8) (hh2 : pb2.height = 8)
    (hsame : ∀ x, x < 8 → ∀ y, y < 8 → pixel_rgb pb1 x y = pixel_rgb pb2 x y)
    (buffer : Nat → Fin 256) (size : Nat)
    (hbuf : ∀ x, x < 8 → ∀ y, y < 8 →
      (buffer (y * 24 + x * 3), buffer (y * 24 + x * 3 + 1), buffer (y * 24 + x * 3 + 2))
        = pixel_rgb pb1 x y) :
    pixbuf_hash pb1 = pixbuf_hash pb2 ∧ buffer_hash buffer size = pixbuf_hash pb1 := by
  constructor
  · apply pixbuf_hash_congr pb1 pb2 hc1 hb1 hw1 hh1 hc2 hb2 hw2 hh2
    intro i hi
    rw [luma_at_eq pb1 hw1 i, luma_at_eq pb2 hw2 i,
      hsame (i % 8) (by omega) (i / 8) (by omega)]
  · rw [buffer_hash_eq]
    apply pixbuf_hash_congr _ pb1 rfl rfl rfl rfl hc1 hb1 hw1 hh1
    intro i hi
    rw [luma_at_eq _ rfl i, luma_at_eq pb1 hw1 i,
      ← hbuf (i % 8) (by omega) (i / 8) (by omega)]
    rfl

theorem pixbuf_hash_rgb_only_witness :
    (3 ≤ gray_pixbuf.n_channels ∧ 3 ≤ padded_gray_pixbuf.n_channels) ∧
    (8 * gray_pixbuf.n_channels ≤ gray_pixbuf.rowstride ∧
      8 * padded_gray_pixbuf.n_channels ≤ padded_gray_pixbuf.rowstride) ∧
    gray_pixbuf.n_channels ≠ padded_gray_pixbuf.n_channels ∧
    gray_pixbuf.rowstride ≠ padded_gray_pixbuf.rowstride ∧
    padded_gray_pixbuf.pixels 3 = 9 ∧
    (∀ x, x < 8 → ∀ y, y < 8 → pixel_rgb gray_pixbuf x y = pixel_rgb padded_gray_pixbuf x y) ∧
    pixbuf_hash gray_pixbuf = pixbuf_hash padded_gray_pixbuf ∧
    buffer_hash (fun _ => 128) 192 = pixbuf_hash gray_pixbuf :=
  ⟨by decide, by decide, by decide, by decide, by decide, by decide,
    pixbuf_hash_rgb_only gray_pixbuf padded_gray_pixbuf rfl rfl rfl rfl rfl rfl rfl rfl
      (by decide) (fun _ => 128) 192 (by decide)⟩

end Fdupves
